import Mathlib

/-!
Verification of the jumbo-exchange `ref-exchange` contract core
(`src/ref-exchange/src/lib.rs`) against its natural-language specification.

Token amounts are `u128` in the source; all arithmetic there is checked
(aborts on overflow/underflow), so amounts are embedded as `Nat` with
explicit guards wherever the source subtracts.  Fallible contract calls
(`env::panic`, `assert!`) are embedded in `Except Err`: the NEAR host rolls
back every state change of an aborted call, so an aborted call is a call
that returns `Except.error` and yields no state.

`lib.rs` is the only source file present; the modules it references
(`simple_pool.rs`, `account_deposit.rs`, `action.rs`, `utils.rs`,
`owner.rs`, `stable_swap.rs`) are not in the sources, so their behaviour is
modelled from the specification; each such definition carries a
`Modelled from the spec:` doc comment.
-/

namespace Jumbo

/-- `FEE_DIVISOR = 10_000` (spec §6, fee basis points denominator). -/
def FEE_DIVISOR : Nat := 10000

/-- `INIT_SHARES_SUPPLY = 10^24` (spec §3, shares minted to the first LP). -/
def INIT_SHARES_SUPPLY : Nat := 10 ^ 24

/-- Token and account identifiers, abstracted to naturals. -/
abbrev TokenId := Nat

abbrev AccountId := Nat

/-- Error kinds of the contract (spec §7). -/
inductive Err where
  | paused
  | notAllowed
  | tokenDuplicates
  | wrongTokenCount
  | unknownPool
  | unknownToken
  | noAmount
  | insufficientBalance
  | insufficientOutput
  | zeroAmount
  | zeroLiquidity
  | sameToken
  | depositNeeded
  | accountNotRegistered
  | insufficientShares
  | mathOverflow
  | oneYocto
  | atLeastOneSwap
  | unimplementedPool
  | computeDFailed
  | computeYFailed
  | slippage
  | feeTooLarge
  | illegalDecimals
  deriving DecidableEq, Repr

/-! ## Ledger account

Modelled from the spec: `account_deposit.rs` is not in the sources.
Spec §4.4: a `LedgerAccount` maps `token_id → u128`; `deposit` credits the
balance (registering the token entry lazily), `withdraw` fails
`InsufficientBalance` when the balance is smaller than the amount; balances
never go negative.  A token entry, once registered, stays (with balance 0)
until an explicit unregister, which is why `get_balance` distinguishes "no
entry" from "entry with 0". -/

/-- Balances are an association list `token → amount`; lookups and updates
target the first occurrence of a key, mirroring a map. -/
def lookupTok : List (TokenId × Nat) → TokenId → Option Nat
  | [], _ => none
  | (t', b) :: rest, t => if t' = t then some b else lookupTok rest t

/-- Credit `a` to the first entry for `t`, appending a fresh entry when absent. -/
def creditTok : List (TokenId × Nat) → TokenId → Nat → List (TokenId × Nat)
  | [], t, a => [(t, a)]
  | (t', b) :: rest, t, a =>
    if t' = t then (t', b + a) :: rest else (t', b) :: creditTok rest t a

/-- Debit `a` from the first entry for `t`; `none` when the entry is absent
or its balance is below `a` (checked arithmetic, no overdraft). -/
def debitTok : List (TokenId × Nat) → TokenId → Nat → Option (List (TokenId × Nat))
  | [], _, _ => none
  | (t', b) :: rest, t, a =>
    if t' = t then
      if a ≤ b then some ((t', b - a) :: rest) else none
    else
      (debitTok rest t a).map (fun l => (t', b) :: l)

/-- Modelled from the spec: per-user ledger of token balances (spec §4.4). -/
structure Account where
  tokens : List (TokenId × Nat)
  deriving DecidableEq, Repr

/-- `Account::get_balance`: `Some` iff the token entry is registered. -/
def Account.get_balance (acc : Account) (t : TokenId) : Option Nat :=
  lookupTok acc.tokens t

/-- Modelled from the spec: `deposit(token, amount)` credits the balance,
registering the token entry lazily (spec §4.4). -/
def Account.deposit (acc : Account) (t : TokenId) (a : Nat) : Account :=
  ⟨creditTok acc.tokens t a⟩

/-- Modelled from the spec: `withdraw(token, amount)` fails
`InsufficientBalance` if `balance[token] < amount`, else subtracts (spec §4.4). -/
def Account.withdraw (acc : Account) (t : TokenId) (a : Nat) : Except Err Account :=
  match debitTok acc.tokens t a with
  | some l => .ok ⟨l⟩
  | none => .error .insufficientBalance

/-- Modelled from the spec: `register_tokens` adds zero-balance entries for
the tokens not yet registered (spec §4.4). -/
def Account.register_tokens (acc : Account) (ts : List TokenId) : Account :=
  ts.foldl (fun a t => if (lookupTok a.tokens t).isSome then a else ⟨a.tokens ++ [(t, 0)]⟩) acc

/-- The empty account (created at storage registration). -/
def Account.empty : Account := ⟨[]⟩

/-! ## Simple pool

Modelled from the spec: `simple_pool.rs` is not in the sources.
Spec §3/§4.2: a constant-product pool of exactly two tokens with reserves
and a total fee in basis points. -/

/-- Modelled from the spec: constant-product pool state (spec §3).
LP share balances are an association list `account → shares`. -/
structure SimplePool where
  token0 : TokenId
  token1 : TokenId
  amount0 : Nat
  amount1 : Nat
  total_fee : Nat
  shares : List (AccountId × Nat)
  shares_total_supply : Nat
  deriving DecidableEq, Repr

/-- Modelled from the spec: the out-given-in formula of §4.2:
`dy = dx*(FEE_DIVISOR - f)*y / (x*FEE_DIVISOR + dx*(FEE_DIVISOR - f))`,
all divisions flooring. -/
def simpleSwapOut (x y dx fee : Nat) : Nat :=
  dx * (FEE_DIVISOR - fee) * y / (x * FEE_DIVISOR + dx * (FEE_DIVISOR - fee))

/-- Ceiling division (spec §4.1 `mul_div_ceil`). -/
def divCeil (a b : Nat) : Nat := (a + b - 1) / b

/-- Modelled from the spec: `swap` of §4.2.  Checks `SameToken`,
`UnknownToken`, `ZeroAmount`, `ZeroLiquidity`; computes the out-given-in
amount; fails `InsufficientOutput` when it is below `min_amount_out`; else
updates the reserves atomically (`x += dx`, `y -= dy`).  The exchange-fee
share minting of §4.2 changes only LP share balances, never reserves or
the output amount, and is not modelled. -/
def SimplePool.swap (p : SimplePool) (token_in : TokenId) (amount_in : Nat)
    (token_out : TokenId) (min_amount_out : Nat) : Except Err (SimplePool × Nat) :=
  if token_in = token_out then .error .sameToken
  else if token_in = p.token0 ∧ token_out = p.token1 then
    if amount_in = 0 then .error .zeroAmount
    else if p.amount0 = 0 ∨ p.amount1 = 0 then .error .zeroLiquidity
    else if simpleSwapOut p.amount0 p.amount1 amount_in p.total_fee < min_amount_out then
      .error .insufficientOutput
    else
      .ok ({ p with
              amount0 := p.amount0 + amount_in
              amount1 := p.amount1 - simpleSwapOut p.amount0 p.amount1 amount_in p.total_fee },
            simpleSwapOut p.amount0 p.amount1 amount_in p.total_fee)
  else if token_in = p.token1 ∧ token_out = p.token0 then
    if amount_in = 0 then .error .zeroAmount
    else if p.amount0 = 0 ∨ p.amount1 = 0 then .error .zeroLiquidity
    else if simpleSwapOut p.amount1 p.amount0 amount_in p.total_fee < min_amount_out then
      .error .insufficientOutput
    else
      .ok ({ p with
              amount1 := p.amount1 + amount_in
              amount0 := p.amount0 - simpleSwapOut p.amount1 p.amount0 amount_in p.total_fee },
            simpleSwapOut p.amount1 p.amount0 amount_in p.total_fee)
  else .error .unknownToken

/-- Modelled from the spec: balanced add-liquidity of §4.2.  On the first
provision (`total_shares = 0`) the requested amounts are taken exactly and
`INIT_SHARES_SUPPLY` shares are minted (both must be positive so that the
§3 invariant `total_shares > 0 → reserves > 0` holds); otherwise the
minted shares are `r = min(a0*S/x, a1*S/y)` (floor) and the consumed
amounts `ceil(r*x/S)`, `ceil(r*y/S)`.  Returns the new pool, the consumed
amounts and the minted shares. -/
def SimplePool.add_liquidity (p : SimplePool) (sender : AccountId) (a0 a1 : Nat) :
    Except Err (SimplePool × Nat × Nat × Nat) :=
  if p.shares_total_supply = 0 then
    if a0 = 0 ∨ a1 = 0 then .error .zeroAmount
    else
      .ok ({ p with
              amount0 := p.amount0 + a0
              amount1 := p.amount1 + a1
              shares := creditTok p.shares sender INIT_SHARES_SUPPLY
              shares_total_supply := p.shares_total_supply + INIT_SHARES_SUPPLY },
            a0, a1, INIT_SHARES_SUPPLY)
  else
    let s := p.shares_total_supply
    let r := min (a0 * s / p.amount0) (a1 * s / p.amount1)
    let c0 := divCeil (r * p.amount0) s
    let c1 := divCeil (r * p.amount1) s
    .ok ({ p with
            amount0 := p.amount0 + c0
            amount1 := p.amount1 + c1
            shares := creditTok p.shares sender r
            shares_total_supply := s + r },
          c0, c1, r)

/-- Modelled from the spec: balanced remove-liquidity of §4.2:
`a_i = floor(s * reserve_i / total_shares)`, failing when any `a_i` is
below its `min_amounts[i]`; the sender must hold `s` shares and the burn
uses checked subtraction.  Returns the new pool and the returned amounts. -/
def SimplePool.remove_liquidity (p : SimplePool) (sender : AccountId) (s : Nat)
    (min0 min1 : Nat) : Except Err (SimplePool × Nat × Nat) :=
  match debitTok p.shares sender s with
  | none => .error .insufficientShares
  | some shares' =>
    if s ≤ p.shares_total_supply then
      let a0 := s * p.amount0 / p.shares_total_supply
      let a1 := s * p.amount1 / p.shares_total_supply
      if a0 < min0 ∨ a1 < min1 then .error .insufficientOutput
      else
        .ok ({ p with
                amount0 := p.amount0 - a0
                amount1 := p.amount1 - a1
                shares := shares'
                shares_total_supply := p.shares_total_supply - s },
              a0, a1)
    else .error .mathOverflow

/-- Modelled from the spec: `SimplePool::new` builds an empty two-token
pool; a token list whose length is not exactly 2 fails `WrongTokenCount`
(spec §3 "exactly two token identifiers", scenario S5). -/
def SimplePool.new (tokens : List TokenId) (fee : Nat) : Except Err SimplePool :=
  match tokens with
  | [t0, t1] => .ok ⟨t0, t1, 0, 0, fee, [], 0⟩
  | _ => .error .wrongTokenCount

/-- Modelled from the spec: `share_register` records an LP share balance
of 0 for a fresh account (spec §3 lifecycle: "an initial LP share of 0 is
recorded for the exchange account"). -/
def SimplePool.share_register (p : SimplePool) (acc : AccountId) : SimplePool :=
  if (lookupTok p.shares acc).isSome then p
  else { p with shares := p.shares ++ [(acc, 0)] }

/-! ## Stable-swap pool

Modelled from the spec: `stable_swap.rs` is not in the sources; the whole
component is modelled from spec §4.3 word by word: the Newton iterations
for the invariant `D` and for `y` (256 rounds, failing `ComputeDFailed` /
`ComputeYFailed` on non-convergence), the swap with its `-1` rounding
safety, total-fee and admin-fee split and its own `min_amount_out` check,
the imbalanced add-liquidity with the per-token imbalance fee (which
"stays in the pool": the stored balances keep the full deposits, the
adjusted copy only sizes the share mint) and the balanced remove with no
fees.  Amounts handed to users are scaled back down from the common
18-decimal precision, flooring.  Share minting for the exchange's admin
fee is a claim on the pool expressed in shares only and is not further
modelled (it moves no tokens).  The source's checked vector indexing is
modelled by a leading length well-formedness guard. -/

/-- `TARGET_DECIMALS = 18` (spec §6): common precision of `c_amounts`. -/
def TARGET_DECIMALS : Nat := 18

/-- Scaling factor from a token's own decimals to the common precision
(spec §3: multiply raw balance by `10^(TARGET_DECIMALS - token_decimals)`). -/
def scaleFactor (dec : Nat) : Nat := 10 ^ (TARGET_DECIMALS - dec)

/-- Index of the first occurrence of a token in a pool's token list
(`token_index` of the stable pool). -/
def idxOf? : List TokenId → TokenId → Option Nat
  | [], _ => Option.none
  | x :: xs, t => if x = t then some 0 else (idxOf? xs t).map (fun i => i + 1)

/-- `Σ x[j]` over `j ≠ k` (spec §4.3 compute-y). -/
def sumExcept : List Nat → Nat → Nat
  | [], _ => 0
  | _ :: xs, 0 => xs.sum
  | x :: xs, k + 1 => x + sumExcept xs k

/-- `Π x[j]` over `j ≠ k` (spec §4.3 compute-y). -/
def prodExcept : List Nat → Nat → Nat
  | [], _ => 1
  | _ :: xs, 0 => xs.prod
  | x :: xs, k + 1 => x * prodExcept xs k

/-- One step of the §4.3 `D` iteration:
`D_prod = D; for i: D_prod = D_prod * D / (x[i] * N)` and
`D_next = (An*sum_x + N*D_prod) * D / ((An-1)*D + (N+1)*D_prod)`. -/
def computeDStep (xs : List Nat) (an n sum_x d : Nat) : Nat :=
  let dprod := xs.foldl (fun acc x => acc * d / (x * n)) d
  (an * sum_x + n * dprod) * d / ((an - 1) * d + (n + 1) * dprod)

/-- The capped `D` iteration: until `|D_next - D| ≤ 1`, at most the given
fuel many rounds, failing `ComputeDFailed` on non-convergence (spec §4.3). -/
def computeDIter (xs : List Nat) (an n sum_x : Nat) : Nat → Nat → Except Err Nat
  | 0, _ => .error .computeDFailed
  | fuel + 1, d =>
    if computeDStep xs an n sum_x d ≤ d + 1 ∧ d ≤ computeDStep xs an n sum_x d + 1 then
      .ok (computeDStep xs an n sum_x d)
    else computeDIter xs an n sum_x fuel (computeDStep xs an n sum_x d)

/-- The Curve invariant `D` of scaled reserves, iterated from `sum_x`
with 256 rounds of fuel (spec §4.3). -/
def computeD (xs : List Nat) (amp : Nat) : Except Err Nat :=
  computeDIter xs (amp * xs.length) xs.length xs.sum 256 xs.sum

/-- The capped `y` iteration `y_next = (y² + c) / (2y + b − D)` (spec
§4.3), failing `ComputeYFailed` on non-convergence. -/
def computeYIter (b c d : Nat) : Nat → Nat → Except Err Nat
  | 0, _ => .error .computeYFailed
  | fuel + 1, y =>
    if (y * y + c) / (2 * y + b - d) ≤ y + 1 ∧ y ≤ (y * y + c) / (2 * y + b - d) + 1 then
      .ok ((y * y + c) / (2 * y + b - d))
    else computeYIter b c d fuel ((y * y + c) / (2 * y + b - d))

/-- Solve for `x[k]` given the other reserves and `D` (spec §4.3):
`b = S + D/An`, `c = D^(N+1) / (N^N · P · An)`, iterated from `y = D`. -/
def computeY (xs : List Nat) (k : Nat) (d amp : Nat) : Except Err Nat :=
  computeYIter (sumExcept xs k + d / (amp * xs.length))
    (d ^ (xs.length + 1) / (xs.length ^ xs.length * prodExcept xs k * (amp * xs.length)))
    d 256 d

/-- Modelled from the spec: stable-swap pool state (spec §3: token list,
per-token decimals, reserves scaled to the common precision, amplification
`A`, `total_fee_bp` and `admin_fee_bp`, LP shares). -/
structure StableSwapPool where
  token_account_ids : List TokenId
  decimals : List Nat
  c_amounts : List Nat
  amp_factor : Nat
  total_fee : Nat
  admin_fee : Nat
  shares : List (AccountId × Nat)
  shares_total_supply : Nat
  deriving DecidableEq, Repr

/-- The parallel per-token vectors have matching lengths; the source keeps
them aligned by construction and indexes them checked. -/
abbrev StableSwapPool.alignedLengths (p : StableSwapPool) : Prop :=
  p.decimals.length = p.token_account_ids.length ∧
    p.c_amounts.length = p.token_account_ids.length

/-- Modelled from the spec: `StableSwapPool::new` builds an empty pool and
validates its configuration — the fee is a basis-point rate out of
`FEE_DIVISOR` (spec §3: "integer fee rate in basis points (denominator
10,000)"), and each token's decimals must fit below the common
`TARGET_DECIMALS` precision with one decimals entry per token (spec §3:
`decimals: Vec<u8>` parallel to the token list, balances scaled up by
`10^(TARGET_DECIMALS − decimals_i)`).  The registration interface (spec
§6) carries no admin-fee parameter, so the `admin_fee_bp` field starts at
0 (the theorems below quantify over arbitrary values of it). -/
def StableSwapPool.new (tokens : List TokenId) (decimals : List Nat)
    (amp : Nat) (fee : Nat) : Except Err StableSwapPool :=
  if ¬fee < FEE_DIVISOR then .error .feeTooLarge
  else if ¬(decimals.length = tokens.length ∧ decimals.all (· ≤ TARGET_DECIMALS)) then
    .error .illegalDecimals
  else .ok ⟨tokens, decimals, tokens.map (fun _ => 0), amp, fee, 0, [], 0⟩

/-- Modelled from the spec: share registration for a stable pool. -/
def StableSwapPool.share_register (p : StableSwapPool) (acc : AccountId) : StableSwapPool :=
  if (lookupTok p.shares acc).isSome then p
  else { p with shares := p.shares ++ [(acc, 0)] }

/-- Modelled from the spec: the §4.3 swap.  Scale `amount_in` up, compute
`D_0`, bump the in-reserve, solve `y` for the out-slot, take
`dy_c = x[k_out] − y − 1` (checked), split the fee
`fee_c = dy_c·total_fee/FEE_DIVISOR` with admin portion
`admin_fee_c = fee_c·admin_fee/FEE_DIVISOR`; the user receives
`dy_c − fee_c` scaled back down, failing `InsufficientOutput` below
`min_amount_out`; the new out-reserve is `y + (fee_c − admin_fee_c)`. -/
def StableSwapPool.swap (p : StableSwapPool) (token_in : TokenId) (amount_in : Nat)
    (token_out : TokenId) (min_amount_out : Nat) : Except Err (StableSwapPool × Nat) :=
  if ¬p.alignedLengths then .error .mathOverflow
  else
    match idxOf? p.token_account_ids token_in, idxOf? p.token_account_ids token_out with
    | some kin, some kout =>
      if kin = kout then .error .sameToken
      else
        match computeD p.c_amounts p.amp_factor with
        | .error e => .error e
        | .ok d0 =>
          match computeY (p.c_amounts.set kin
              (p.c_amounts.getD kin 0 + amount_in * scaleFactor (p.decimals.getD kin 0)))
              kout d0 p.amp_factor with
          | .error e => .error e
          | .ok y =>
            if p.c_amounts.getD kout 0 < y + 1 then .error .mathOverflow
            else if (p.c_amounts.getD kout 0 - (y + 1) -
                  (p.c_amounts.getD kout 0 - (y + 1)) * p.total_fee / FEE_DIVISOR) /
                  scaleFactor (p.decimals.getD kout 0) < min_amount_out then
              .error .insufficientOutput
            else
              .ok ({ p with c_amounts :=
                      ((p.c_amounts.set kin
                        (p.c_amounts.getD kin 0 +
                          amount_in * scaleFactor (p.decimals.getD kin 0))).set kout
                        (y + ((p.c_amounts.getD kout 0 - (y + 1)) * p.total_fee / FEE_DIVISOR -
                          (p.c_amounts.getD kout 0 - (y + 1)) * p.total_fee / FEE_DIVISOR *
                            p.admin_fee / FEE_DIVISOR))) },
                    (p.c_amounts.getD kout 0 - (y + 1) -
                      (p.c_amounts.getD kout 0 - (y + 1)) * p.total_fee / FEE_DIVISOR) /
                      scaleFactor (p.decimals.getD kout 0))
    | _, _ => .error .unknownToken

/-- Modelled from the spec: the §4.3 imbalanced add-liquidity.  Deposits
are scaled up and added slot-wise (`0` allowed); on first provision the
minted shares are `D_1`; otherwise the per-token imbalance fee
`fee_i_c = diff_i · total_fee · N / (4(N−1)·FEE_DIVISOR)` is subtracted
only in the copy that sizes the mint
(`minted = total_shares · (D_2 − D_0)/D_0`) — the fee itself stays in the
pool, so the stored balances keep the full deposits; fails `Slippage`
when the minted shares are below `min_shares`. -/
def StableSwapPool.add_stable_liquidity (p : StableSwapPool) (sender : AccountId)
    (amounts : List Nat) (min_shares : Nat) : Except Err (StableSwapPool × Nat) :=
  if ¬(p.alignedLengths ∧ amounts.length = p.token_account_ids.length) then
    .error .wrongTokenCount
  else if p.shares_total_supply = 0 then
    match computeD (List.zipWith (fun c ad => c + ad.1 * scaleFactor ad.2) p.c_amounts
        (amounts.zip p.decimals)) p.amp_factor with
    | .error e => .error e
    | .ok d1 =>
      if d1 < min_shares then .error .slippage
      else
        .ok ({ p with c_amounts := List.zipWith (fun c ad => c + ad.1 * scaleFactor ad.2)
                        p.c_amounts (amounts.zip p.decimals),
                      shares := creditTok p.shares sender d1,
                      shares_total_supply := p.shares_total_supply + d1 }, d1)
  else
    match computeD p.c_amounts p.amp_factor with
    | .error e => .error e
    | .ok d0 =>
      match computeD (List.zipWith (fun c ad => c + ad.1 * scaleFactor ad.2) p.c_amounts
          (amounts.zip p.decimals)) p.amp_factor with
      | .error e => .error e
      | .ok d1 =>
        match computeD (List.zipWith (fun x1 x0 =>
            x1 - (if x1 ≤ d1 * x0 / d0 then d1 * x0 / d0 - x1 else x1 - d1 * x0 / d0) *
              p.total_fee * p.token_account_ids.length /
              (4 * (p.token_account_ids.length - 1) * FEE_DIVISOR))
            (List.zipWith (fun c ad => c + ad.1 * scaleFactor ad.2) p.c_amounts
              (amounts.zip p.decimals)) p.c_amounts) p.amp_factor with
        | .error e => .error e
        | .ok d2 =>
          if p.shares_total_supply * (d2 - d0) / d0 < min_shares then .error .slippage
          else
            .ok ({ p with c_amounts := List.zipWith (fun c ad => c + ad.1 * scaleFactor ad.2)
                            p.c_amounts (amounts.zip p.decimals),
                          shares := creditTok p.shares sender
                            (p.shares_total_supply * (d2 - d0) / d0),
                          shares_total_supply := p.shares_total_supply +
                            p.shares_total_supply * (d2 - d0) / d0 },
                  p.shares_total_supply * (d2 - d0) / d0)

/-- Modelled from the spec: the §4.3 balanced remove-liquidity:
`a_i = floor(shares · x[i] / total_shares)` in scaled units, no fees; the
user receives the amounts scaled back down, failing `InsufficientOutput`
below the `min_amounts`; the sender's shares and the total supply are
burned with checked subtraction. -/
def StableSwapPool.remove_liquidity (p : StableSwapPool) (sender : AccountId)
    (shares : Nat) (min_amounts : List Nat) : Except Err (StableSwapPool × List Nat) :=
  if ¬(p.alignedLengths ∧ min_amounts.length = p.token_account_ids.length) then
    .error .wrongTokenCount
  else
    match debitTok p.shares sender shares with
    | Option.none => .error .insufficientShares
    | some shares' =>
      if shares ≤ p.shares_total_supply then
        if (((List.zipWith (fun x d => shares * x / p.shares_total_supply / scaleFactor d)
              p.c_amounts p.decimals).zip min_amounts).all fun rm => rm.2 ≤ rm.1) then
          .ok ({ p with
                  c_amounts := p.c_amounts.map
                    (fun x => x - shares * x / p.shares_total_supply),
                  shares := shares',
                  shares_total_supply := p.shares_total_supply - shares },
                List.zipWith (fun x d => shares * x / p.shares_total_supply / scaleFactor d)
                  p.c_amounts p.decimals)
        else .error .insufficientOutput
      else .error .mathOverflow

/-! ## Pool sum type (spec §3, §9: closed variant with a dispatch table;
`pool.rs` is not in the sources, dispatchers are modelled from the spec). -/

/-- `Pool`: the closed sum of the two pool families (spec §3). -/
inductive Pool where
  | simple (p : SimplePool)
  | stable (p : StableSwapPool)
  deriving DecidableEq, Repr

/-- Pool token list. -/
def Pool.tokens : Pool → List TokenId
  | .simple p => [p.token0, p.token1]
  | .stable p => p.token_account_ids

/-- Dispatch `swap`: each family runs its own §4.2 / §4.3 swap. -/
def Pool.swap (pool : Pool) (token_in : TokenId) (amount_in : Nat)
    (token_out : TokenId) (min_amount_out : Nat) : Except Err (Pool × Nat) :=
  match pool with
  | .simple p => (p.swap token_in amount_in token_out min_amount_out).map
      (fun r => (Pool.simple r.1, r.2))
  | .stable p => (p.swap token_in amount_in token_out min_amount_out).map
      (fun r => (Pool.stable r.1, r.2))

/-- Dispatch add-liquidity from the generic entry (amounts in pool-token
order): a simple pool runs the §4.2 balanced add and reports the balanced
amounts it consumed; a stable pool runs the §4.3 imbalanced add, which
consumes the requested amounts exactly (its share-slippage bound is the
caller's `min_amounts` here, so `min_shares = 0` at this layer). -/
def Pool.add_liquidity (pool : Pool) (sender : AccountId) (amounts : List Nat) :
    Except Err (Pool × List Nat × Nat) :=
  match pool with
  | .simple p =>
    match amounts with
    | [a0, a1] => (p.add_liquidity sender a0 a1).map
        (fun r => (Pool.simple r.1, [r.2.1, r.2.2.1], r.2.2.2))
    | _ => .error .wrongTokenCount
  | .stable p => (p.add_stable_liquidity sender amounts 0).map
      (fun r => (Pool.stable r.1, amounts, r.2))

/-- Dispatch the imbalanced stable add-liquidity with its `min_shares`
bound; a simple pool panics with unimplemented (source `lib.rs` doc:
"If simple pool is given, panic with unimplement"). -/
def Pool.add_stable_liquidity (pool : Pool) (sender : AccountId) (amounts : List Nat)
    (min_shares : Nat) : Except Err (Pool × Nat) :=
  match pool with
  | .simple _ => .error .unimplementedPool
  | .stable p => (p.add_stable_liquidity sender amounts min_shares).map
      (fun r => (Pool.stable r.1, r.2))

/-- Dispatch balanced remove-liquidity: §4.2 for a simple pool, §4.3
(no fees) for a stable pool. -/
def Pool.remove_liquidity (pool : Pool) (sender : AccountId) (shares : Nat)
    (min_amounts : List Nat) : Except Err (Pool × List Nat) :=
  match pool with
  | .simple p =>
    match min_amounts with
    | [m0, m1] => (p.remove_liquidity sender shares m0 m1).map
        (fun r => (Pool.simple r.1, [r.2.1, r.2.2]))
    | _ => .error .wrongTokenCount
  | .stable p => (p.remove_liquidity sender shares min_amounts).map
      (fun r => (Pool.stable r.1, r.2))

/-- Dispatch share registration. -/
def Pool.share_register (pool : Pool) (acc : AccountId) : Pool :=
  match pool with
  | .simple p => .simple (p.share_register acc)
  | .stable p => .stable (p.share_register acc)

/-- Whether a pool is of the constant-product family. -/
def Pool.isSimple : Pool → Bool
  | .simple _ => true
  | .stable _ => false

/-- Whether a pool's fee configuration is within the basis-point domain
(`total_fee ≤ FEE_DIVISOR`, spec §3: fee rates are basis points with
denominator 10,000); the constructors only build such pools. -/
def Pool.feeOk : Pool → Bool
  | .simple _ => true
  | .stable p => decide (p.total_fee ≤ FEE_DIVISOR)

/-! ## Actions (`action.rs` is not in the sources) -/

/-- `SwapAction` (source `lib.rs` re-exports it; fields per spec §2
`SwapAction{pool_id, token_in, amount_in?, token_out, min_amount_out}`). -/
structure SwapAction where
  pool_id : Nat
  token_in : TokenId
  amount_in : Option Nat
  token_out : TokenId
  min_amount_out : Nat
  deriving DecidableEq, Repr

/-- `Action`: generic action; only swap variants exist (spec §4.5). -/
inductive Action where
  | swap (a : SwapAction)
  deriving DecidableEq, Repr

/-- `ActionResult`: result carried between actions. -/
inductive ActionResult where
  | none
  | amount (a : Nat)
  deriving DecidableEq, Repr

/-- Modelled from the spec: `ActionResult::to_amount` yields the `u128`
output of the previous action and fails `NoAmount` when there is none
(spec §4.5 step 1). -/
def ActionResult.to_amount : ActionResult → Except Err Nat
  | .none => .error .noAmount
  | .amount a => .ok a

/-- Modelled from the spec: `Action::tokens()` lists the tokens a swap
action touches, its `token_in` and `token_out` (source `lib.rs` doc: "If
no attached deposit, outgoing tokens used in swaps must be whitelisted"). -/
def Action.tokens : Action → List TokenId
  | .swap a => [a.token_in, a.token_out]

/-! ## Contract state and entry points (source `lib.rs`)

Entry points take the caller (`env::predecessor_account_id()`) and the
attached deposit (`env::attached_deposit()`) as explicit arguments.
Storage accounting, cross-contract AML gating and token-transfer promises
are host/transport concerns outside the core (spec §1); the AML-gated
entry points are modelled as their approved continuation. -/

/-- The contract's own account (`env::current_account_id()`); the
embedding models a single deployed instance. -/
def EXCHANGE_ID : AccountId := 1000

/-- `RunningState` (source lines 61–64). -/
inductive RunningState where
  | running
  | pausedState
  deriving DecidableEq, Repr

/-- Association-list lookup keyed by `Nat` identifiers (first occurrence),
mirroring `LookupMap` reads. -/
def alookup {α : Type} : List (Nat × α) → Nat → Option α
  | [], _ => Option.none
  | (k, v) :: rest, key => if k = key then some v else alookup rest key

/-- Association-list store: update the first occurrence of the key, or
append a fresh entry, mirroring `LookupMap::insert`. -/
def astore {α : Type} : List (Nat × α) → Nat → α → List (Nat × α)
  | [], key, v => [(key, v)]
  | (k, v') :: rest, key, v =>
    if k = key then (k, v) :: rest else (k, v') :: astore rest key v

/-- Contract state (source lines 77–98). -/
structure Contract where
  owner_id : AccountId
  exchange_fee : Nat
  referral_fee : Nat
  pools : List Pool
  accounts : List (AccountId × Account)
  whitelisted_tokens : List TokenId
  guardians : List AccountId
  state : RunningState
  aml_account_id : AccountId
  accepted_risk_score : Nat
  deriving DecidableEq, Repr

/-- `Contract::new` (source lines 103–122). -/
def Contract.new (owner_id : AccountId) (exchange_fee referral_fee : Nat)
    (aml_account_id : AccountId) (accepted_risk_score : Nat) : Contract :=
  ⟨owner_id, exchange_fee, referral_fee, [], [], [], [],
    RunningState.running, aml_account_id, accepted_risk_score⟩

/-- `assert_contract_running` (source lines 493–498): anything but
`Running` aborts with the paused error. -/
def Contract.assert_contract_running (c : Contract) : Except Err Unit :=
  match c.state with
  | .running => .ok ()
  | _ => .error .paused

/-- Modelled from the spec: `is_owner_or_guardians` (`owner.rs` is not in
the sources): the caller is the owner or one of the guardians. -/
def Contract.is_owner_or_guardians (c : Contract) (caller : AccountId) : Bool :=
  caller = c.owner_id || c.guardians.contains caller

/-- Modelled from the spec: `check_token_duplicates` (`utils.rs` is not in
the sources) fails `TokenDuplicates` when the token list repeats an entry
(spec §3 "duplicates forbidden", scenario S5). -/
def checkTokenDuplicates (tokens : List TokenId) : Except Err Unit :=
  if tokens.Nodup then .ok () else .error .tokenDuplicates

/-- `internal_unwrap_account` — the sender must be registered. -/
def Contract.internal_unwrap_account (c : Contract) (sender : AccountId) :
    Except Err Account :=
  match alookup c.accounts sender with
  | some a => .ok a
  | Option.none => .error .accountNotRegistered

/-- `internal_unwrap_or_default_account`. -/
def Contract.internal_unwrap_or_default_account (c : Contract) (sender : AccountId) : Account :=
  (alookup c.accounts sender).getD Account.empty

/-- `internal_save_account`. -/
def Contract.internal_save_account (c : Contract) (sender : AccountId) (acc : Account) : Contract :=
  { c with accounts := astore c.accounts sender acc }

/-- `internal_add_pool` (source lines 520–531): the new pool's id is the
current length of the pool list; the exchange account is share-registered
at creation and the pool is appended.  Returns the state and the id. -/
def Contract.internal_add_pool (c : Contract) (pool : Pool) : Contract × Nat :=
  let id := c.pools.length
  let pool := pool.share_register EXCHANGE_ID
  ({ c with pools := c.pools ++ [pool] }, id)

/-- `add_simple_pool` (source lines 126–137): requires the contract
running, then no duplicate tokens, then builds the two-token pool (which
enforces the token count) and appends it.  No caller-role check. -/
def Contract.add_simple_pool (c : Contract) (_caller : AccountId)
    (tokens : List TokenId) (fee : Nat) : Except Err (Contract × Nat) := do
  c.assert_contract_running
  checkTokenDuplicates tokens
  let p ← SimplePool.new tokens fee
  .ok (c.internal_add_pool (Pool.simple p))

/-- `add_stable_swap_pool` (source lines 145–162): requires the caller to
be the owner or a guardian (`ERR100_NOT_ALLOWED`), then no duplicate
tokens; it does NOT call `assert_contract_running`. -/
def Contract.add_stable_swap_pool (c : Contract) (caller : AccountId)
    (tokens : List TokenId) (decimals : List Nat) (fee : Nat) (amp_factor : Nat) :
    Except Err (Contract × Nat) := do
  if c.is_owner_or_guardians caller then
    checkTokenDuplicates tokens
    let p ← StableSwapPool.new tokens decimals amp_factor fee
    .ok (c.internal_add_pool (Pool.stable p))
  else .error .notAllowed

/-- `internal_pool_swap` (source lines 581–605): fetch the pool
(`ERR_NO_POOL`), run its `swap`, store the updated pool back at the same
index.  The `AdminFees` argument only routes fee share minting, which is
not modelled. -/
def Contract.internal_pool_swap (c : Contract) (pool_id : Nat) (token_in : TokenId)
    (amount_in : Nat) (token_out : TokenId) (min_amount_out : Nat) :
    Except Err (Contract × Nat) :=
  match c.pools[pool_id]? with
  | Option.none => .error .unknownPool
  | some pool => do
    let (pool', amount_out) ← pool.swap token_in amount_in token_out min_amount_out
    .ok ({ c with pools := c.pools.set pool_id pool' }, amount_out)

/-- `internal_execute_action` (source lines 550–577): resolve `amount_in`
(explicit value, else the previous action's amount), withdraw it from the
account, swap via the pool, deposit the output, return it as the result. -/
def Contract.internal_execute_action (c : Contract) (account : Account)
    (action : Action) (prev_result : ActionResult) :
    Except Err (Contract × Account × ActionResult) :=
  match action with
  | .swap sa => do
    let amount_in ← match sa.amount_in with
      | some v => Except.ok v
      | Option.none => prev_result.to_amount
    let account ← account.withdraw sa.token_in amount_in
    let (c, amount_out) ← c.internal_pool_swap sa.pool_id sa.token_in amount_in
      sa.token_out sa.min_amount_out
    .ok (c, account.deposit sa.token_out amount_out, ActionResult.amount amount_out)

/-- `internal_execute_actions` (source lines 535–547): fold
`internal_execute_action` over the actions, threading the result; returns
the result of the last action. -/
def Contract.internal_execute_actions (c : Contract) (account : Account)
    (actions : List Action) (result : ActionResult) :
    Except Err (Contract × Account × ActionResult) :=
  match actions with
  | [] => .ok (c, account, result)
  | action :: rest => do
    let (c, account, result) ← c.internal_execute_action account action result
    c.internal_execute_actions account rest result

/-- The whitelist/registration check of `execute_actions` (source lines
179–191): with no attached deposit, every token of every action must have
a balance entry in the caller's account or be whitelisted. -/
def Contract.depositCheckOk (c : Contract) (account : Account) (actions : List Action) : Bool :=
  actions.all fun action =>
    action.tokens.all fun t =>
      (account.get_balance t).isSome || c.whitelisted_tokens.contains t

/-- `execute_actions` (source lines 169–197): requires the contract
running and the sender registered; with zero attached deposit every token
touched must have a balance entry or be whitelisted
(`ERR27_DEPOSIT_NEEDED`); then executes the actions starting from
`ActionResult::None` and saves the account. -/
def Contract.execute_actions (c : Contract) (attached_deposit : Nat)
    (actions : List Action) (sender_id : AccountId) :
    Except Err (Contract × ActionResult) := do
  c.assert_contract_running
  let account ← c.internal_unwrap_account sender_id
  if attached_deposit = 0 ∧ ¬c.depositCheckOk account actions then
    .error .depositNeeded
  else do
    let (c, account, result) ← c.internal_execute_actions account actions ActionResult.none
    .ok (c.internal_save_account sender_id account, result)

/-- `internal_swap_unchecked` (source lines 607–622): wraps the swap
actions and returns the final amount. -/
def Contract.internal_swap_unchecked (c : Contract) (attached_deposit : Nat)
    (actions : List SwapAction) (sender_id : AccountId) :
    Except Err (Contract × Nat) := do
  let (c, result) ← c.execute_actions attached_deposit (actions.map Action.swap) sender_id
  let a ← result.to_amount
  .ok (c, a)

/-- `swap` (source lines 269–292): requires the contract running and at
least one action, then routes through the AML gate to
`internal_swap_unchecked`; the cross-contract AML approval is a transport
concern (spec §1) and is modelled as the approved continuation. -/
def Contract.swapEntry (c : Contract) (attached_deposit : Nat)
    (actions : List SwapAction) (caller : AccountId) :
    Except Err (Contract × Nat) := do
  c.assert_contract_running
  if actions.length = 0 then .error .atLeastOneSwap
  else c.internal_swap_unchecked attached_deposit actions caller

/-- `internal_add_liquidity_unchecked` (source lines 417–448): requires a
positive attached deposit, lets the pool compute the consumed balanced
amounts and mint shares, checks the optional `min_amounts`
(`ERR_MIN_AMOUNT`), withdraws the consumed amounts from the sender's
deposits and stores account and pool. -/
def Contract.internal_add_liquidity_unchecked (c : Contract) (attached_deposit : Nat)
    (pool_id : Nat) (amounts : List Nat) (sender_id : AccountId)
    (min_amounts : Option (List Nat)) : Except Err Contract := do
  if attached_deposit = 0 then .error .oneYocto
  else
    match c.pools[pool_id]? with
    | Option.none => .error .unknownPool
    | some pool => do
      let (pool', consumed, _minted) ← pool.add_liquidity sender_id amounts
      match min_amounts with
      | some mins =>
        if (consumed.zip mins).all (fun am => am.2 ≤ am.1) then .ok () else
          .error .insufficientOutput
      | Option.none => .ok ()
      let deposits := c.internal_unwrap_or_default_account sender_id
      let deposits ← (pool.tokens.zip consumed).foldlM
        (fun (acc : Account) ta => acc.withdraw ta.1 ta.2) deposits
      let c := c.internal_save_account sender_id deposits
      .ok { c with pools := c.pools.set pool_id pool' }

/-- `add_liquidity` (source lines 294–319): requires the contract running,
then routes through the AML gate to `internal_add_liquidity_unchecked`
(modelled as the approved continuation). -/
def Contract.add_liquidity (c : Contract) (attached_deposit : Nat) (pool_id : Nat)
    (amounts : List Nat) (min_amounts : Option (List Nat)) (caller : AccountId) :
    Except Err Contract := do
  c.assert_contract_running
  c.internal_add_liquidity_unchecked attached_deposit pool_id amounts caller min_amounts

/-- `internal_add_stable_liquidity_unchecked` (source lines 457–488):
requires a positive attached deposit, looks the pool up
(`ERR_NO_POOL`), runs the pool's imbalanced stable add with the caller's
`min_shares`, withdraws the requested `amounts` from the caller's
deposits over the pool's token list, saves account and pool. -/
def Contract.internal_add_stable_liquidity_unchecked (c : Contract)
    (attached_deposit : Nat) (pool_id : Nat) (amounts : List Nat)
    (min_shares : Nat) (sender_id : AccountId) : Except Err Contract := do
  if attached_deposit = 0 then .error .oneYocto
  else
    match c.pools[pool_id]? with
    | Option.none => .error .unknownPool
    | some pool => do
      let (pool', _minted) ← pool.add_stable_liquidity sender_id amounts min_shares
      let deposits := c.internal_unwrap_or_default_account sender_id
      let deposits ← (pool.tokens.zip amounts).foldlM
        (fun (acc : Account) ta => acc.withdraw ta.1 ta.2) deposits
      let c := c.internal_save_account sender_id deposits
      .ok { c with pools := c.pools.set pool_id pool' }

/-- `add_stable_liquidity` (source lines 321–341): requires the contract
running, then routes through the AML gate to
`internal_add_stable_liquidity_unchecked` (modelled as the approved
continuation). -/
def Contract.add_stable_liquidity (c : Contract) (attached_deposit : Nat)
    (pool_id : Nat) (amounts : List Nat) (min_shares : Nat)
    (caller : AccountId) : Except Err Contract := do
  c.assert_contract_running
  c.internal_add_stable_liquidity_unchecked attached_deposit pool_id amounts min_shares caller

/-- `remove_liquidity` (source lines 345–371): requires exactly one
attached yocto (`assert_one_yocto`, checked first), then the contract
running; burns the shares via the pool, credits the returned amounts to
the sender's deposits and stores account and pool. -/
def Contract.remove_liquidity (c : Contract) (attached_deposit : Nat) (pool_id : Nat)
    (shares : Nat) (min_amounts : List Nat) (caller : AccountId) :
    Except Err Contract := do
  if attached_deposit ≠ 1 then .error .oneYocto
  else do
    c.assert_contract_running
    match c.pools[pool_id]? with
    | Option.none => .error .unknownPool
    | some pool => do
      let (pool', amounts) ← pool.remove_liquidity caller shares min_amounts
      let c' := { c with pools := c.pools.set pool_id pool' }
      let deposits := c'.internal_unwrap_or_default_account caller
      let deposits := (pool'.tokens.zip amounts).foldl
        (fun (acc : Account) ta => acc.deposit ta.1 ta.2) deposits
      .ok (c'.internal_save_account caller deposits)

/-! ## The §4.5 executor, written from the specification's words

Used to check that the source decomposition (`internal_execute_actions` /
`internal_execute_action` / `internal_pool_swap`) implements spec §4.5. -/

/-- The executor exactly as spec §4.5 numbers its steps, one recursive
function: (1) resolve `amount_in` from the action or the previous output,
failing `NoAmount` if the first action has none; (2) withdraw it from the
ledger account; (3) run the pool's swap; (4) deposit the output;
(5) carry the output forward; an empty tail returns the carried result. -/
def executorSpec (c : Contract) (account : Account) (actions : List Action)
    (prev : ActionResult) : Except Err (Contract × Account × ActionResult) :=
  match actions with
  | [] => .ok (c, account, prev)
  | .swap sa :: rest => do
    let amount_in ← match sa.amount_in with
      | some v => Except.ok v
      | Option.none => prev.to_amount
    let account ← account.withdraw sa.token_in amount_in
    match c.pools[sa.pool_id]? with
    | Option.none => .error .unknownPool
    | some pool => do
      let (pool', amount_out) ← pool.swap sa.token_in amount_in sa.token_out sa.min_amount_out
      executorSpec { c with pools := c.pools.set sa.pool_id pool' }
        (account.deposit sa.token_out amount_out) rest (ActionResult.amount amount_out)

/-! ## Operation layer

One inductive of the contract's mutating calls, with the host's
transactional rollback (spec §5: "either the entire call commits or none
of it does") made explicit by `stepOp`. -/

/-- Modelled from the spec: `ledger_deposit` (spec §6; the token-transfer
adapter is not in the sources): credits the user's ledger account,
creating it on first deposit (spec §3 lifecycle). -/
def Contract.ledger_deposit (c : Contract) (user : AccountId) (t : TokenId) (a : Nat) : Contract :=
  let acc := c.internal_unwrap_or_default_account user
  c.internal_save_account user (acc.deposit t a)

/-- Modelled from the spec: `ledger_withdraw` (spec §6): debits the user's
ledger account, failing on a missing account or insufficient balance. -/
def Contract.ledger_withdraw (c : Contract) (user : AccountId) (t : TokenId) (a : Nat) :
    Except Err Contract := do
  let acc ← c.internal_unwrap_account user
  let acc ← acc.withdraw t a
  .ok (c.internal_save_account user acc)

/-- Modelled from the spec: account/token registration (spec §4.4
`register_tokens`, §3 lifecycle): ensures the user has an account and adds
zero-balance entries for the listed tokens. -/
def Contract.register_account (c : Contract) (user : AccountId) (ts : List TokenId) : Contract :=
  let acc := c.internal_unwrap_or_default_account user
  c.internal_save_account user (acc.register_tokens ts)

/-- The contract's mutating operations. -/
inductive Op where
  | registerAccount (user : AccountId) (tokens : List TokenId)
  | ledgerDeposit (user : AccountId) (token : TokenId) (amount : Nat)
  | ledgerWithdraw (user : AccountId) (token : TokenId) (amount : Nat)
  | addSimplePool (caller : AccountId) (tokens : List TokenId) (fee : Nat)
  | addStablePool (caller : AccountId) (tokens : List TokenId) (decimals : List Nat)
      (fee : Nat) (amp : Nat)
  | addLiquidity (caller : AccountId) (attached : Nat) (pool_id : Nat)
      (amounts : List Nat) (min_amounts : Option (List Nat))
  | addStableLiquidity (caller : AccountId) (attached : Nat) (pool_id : Nat)
      (amounts : List Nat) (min_shares : Nat)
  | removeLiquidity (caller : AccountId) (attached : Nat) (pool_id : Nat)
      (shares : Nat) (min_amounts : List Nat)
  | executeActions (caller : AccountId) (attached : Nat) (actions : List Action)
  deriving DecidableEq, Repr

/-- Apply one operation through the contract's entry points. -/
def applyOp (c : Contract) : Op → Except Err Contract
  | .registerAccount user ts => .ok (c.register_account user ts)
  | .ledgerDeposit user t a => .ok (c.ledger_deposit user t a)
  | .ledgerWithdraw user t a => c.ledger_withdraw user t a
  | .addSimplePool caller ts fee => (c.add_simple_pool caller ts fee).map Prod.fst
  | .addStablePool caller ts decs fee amp =>
      (c.add_stable_swap_pool caller ts decs fee amp).map Prod.fst
  | .addLiquidity caller att pid amounts mins =>
      c.add_liquidity att pid amounts mins caller
  | .addStableLiquidity caller att pid amounts minS =>
      c.add_stable_liquidity att pid amounts minS caller
  | .removeLiquidity caller att pid shares mins =>
      c.remove_liquidity att pid shares mins caller
  | .executeActions caller att actions =>
      (c.execute_actions att actions caller).map Prod.fst

/-- One transactional step: an aborted call leaves the state unchanged
(host rollback, spec §5/§7). -/
def stepOp (c : Contract) (op : Op) : Contract :=
  match applyOp c op with
  | .ok c' => c'
  | .error _ => c

/-- Run a sequence of calls. -/
def run (c : Contract) (ops : List Op) : Contract :=
  ops.foldl stepOp c

/-! ## Token accounting -/

/-- Sum of the entries of an association list at a given key (counting
every occurrence). -/
def entrySum : List (Nat × Nat) → Nat → Nat
  | [], _ => 0
  | (k, v) :: rest, t => (if k = t then v else 0) + entrySum rest t

/-- A stable pool's reserves, paired with their tokens and scaled back
down from the common precision to the tokens' own raw units (spec §3:
`amount_i = c_amount_i / 10^(TARGET_DECIMALS - decimals_i)`). -/
def rawList : List TokenId → List Nat → List Nat → List (TokenId × Nat)
  | tk :: ts, c :: cs, d :: ds => (tk, c / scaleFactor d) :: rawList ts cs ds
  | _, _, _ => []

/-- Amount of token `t` held in a pool's reserves, in raw token units. -/
def Pool.tokenAmount : Pool → TokenId → Nat
  | .simple p, t =>
      (if p.token0 = t then p.amount0 else 0) + (if p.token1 = t then p.amount1 else 0)
  | .stable p, t => entrySum (rawList p.token_account_ids p.c_amounts p.decimals) t

/-- Sum of all ledger balances of token `t`. -/
def accountsTokenSum : List (AccountId × Account) → TokenId → Nat
  | [], _ => 0
  | (_, acc) :: rest, t => entrySum acc.tokens t + accountsTokenSum rest t

/-- Sum of all pool reserves of token `t`. -/
def poolsTokenSum : List Pool → TokenId → Nat
  | [], _ => 0
  | p :: rest, t => p.tokenAmount t + poolsTokenSum rest t

/-- Total of token `t` custodied by the contract: all users' ledger
balances plus all pool reserves. -/
def totalOfToken (c : Contract) (t : TokenId) : Nat :=
  accountsTokenSum c.accounts t + poolsTokenSum c.pools t

/-- Whether every pool in the registry is a constant-product pool (the
§4.3 stable-swap arithmetic, with its `-1` rounding and admin-fee cut, is
then absent from the state). -/
def stableFree (c : Contract) : Bool := c.pools.all Pool.isSimple

/-- Whether an operation can introduce a stable pool into the registry. -/
def Op.addsStablePool : Op → Bool
  | .addStablePool _ _ _ _ _ => true
  | _ => false

/-- Amount of token `t` a successful operation deposits into the contract
from outside (only `ledgerDeposit` does). -/
def opDeposited (_c : Contract) (op : Op) (t : TokenId) : Nat :=
  match op with
  | .ledgerDeposit _ t' a => if t' = t then a else 0
  | _ => 0

/-- Amount of token `t` a successful operation withdraws out of the
contract (only a successful `ledgerWithdraw` does). -/
def opWithdrawn (c : Contract) (op : Op) (t : TokenId) : Nat :=
  match op with
  | .ledgerWithdraw _ t' a =>
    match applyOp c op with
    | .ok _ => if t' = t then a else 0
    | .error _ => 0
  | _ => 0

/-- Run a sequence of calls, tallying the amounts of token `t` deposited
into and withdrawn out of the contract by the successful calls. -/
def runLedger (t : TokenId) : Contract → List Op → Contract × Nat × Nat
  | c, [] => (c, 0, 0)
  | c, op :: rest =>
    ((runLedger t (stepOp c op) rest).1,
      opDeposited c op t + (runLedger t (stepOp c op) rest).2.1,
      opWithdrawn c op t + (runLedger t (stepOp c op) rest).2.2)

/-! ## Auxiliary definitions for the verification -/

/-- `execute_actions` with the zero-deposit whitelist check omitted;
compared against the real entry point to show the check is skipped
entirely whenever a deposit is attached. -/
def Contract.execute_actions_unchecked (c : Contract) (actions : List Action)
    (sender_id : AccountId) : Except Err (Contract × ActionResult) := do
  c.assert_contract_running
  let account ← c.internal_unwrap_account sender_id
  let (c, account, result) ← c.internal_execute_actions account actions ActionResult.none
  .ok (c.internal_save_account sender_id account, result)

/-- `get_deposit` view: a user's ledger balance of a token (0 if absent). -/
def getDeposit (c : Contract) (u : AccountId) (t : TokenId) : Nat :=
  ((c.internal_unwrap_or_default_account u).get_balance t).getD 0

/-! Concrete scenario states, mirroring the unit tests of `lib.rs`
(`setup_contract` uses owner 0, `exchange_fee = 1600`, `referral_fee =
400`; token contracts are accounts 1 and 2; the LP user is account 3). -/

/-- The freshly initialised contract of `setup_contract`. -/
def baseContract : Contract := Contract.new 0 1600 400 5 5

/-- The same contract, paused. -/
def pausedContract : Contract :=
  { baseContract with state := RunningState.pausedState }

/-- Scenario S1/S3 pool: fee 25 bp, reserves `{A: 5·10^24, B: 10·10^24}`,
LP shares held by account 3. -/
def s1Pool : SimplePool :=
  ⟨1, 2, 5 * 10 ^ 24, 10 * 10 ^ 24, 25, [(3, INIT_SHARES_SUPPLY)], INIT_SHARES_SUPPLY⟩

/-- Scenario S1 contract: the pool plus account 3 holding `10^26` of each
token (as in `test_basics`). -/
def s1Contract : Contract :=
  { baseContract with
    pools := [Pool.simple s1Pool]
    accounts := [(3, ⟨[(1, 100 * 10 ^ 24), (2, 100 * 10 ^ 24)]⟩)]
    whitelisted_tokens := [1, 2] }

/-- Round-trip scenario contract (`test_roundtrip_swap`): the S1 pool plus
user 7 holding `10^6` of token 1. -/
def rtContract : Contract :=
  { baseContract with
    pools := [Pool.simple s1Pool]
    accounts := [(3, ⟨[(1, 100 * 10 ^ 24), (2, 100 * 10 ^ 24)]⟩), (7, ⟨[(1, 1000000)]⟩)]
    whitelisted_tokens := [1, 2] }

/-- A → B → A round trip of `a` units on pool 0 (second action takes its
input from the first action's output). -/
def rtActions (a : Nat) : List SwapAction :=
  [⟨0, 1, some a, 2, 1⟩, ⟨0, 2, Option.none, 1, 1⟩]

/-- Scenario S2 (`test_liquidity`): register, deposit `10^26` of each
token, create the pool, add `{50·10^24, 10·10^24}` then
`{50·10^24, 50·10^24}`, remove `10^24` shares with `min_amounts = [1,1]`. -/
def s2Ops : List Op :=
  [Op.registerAccount 3 [1, 2],
    Op.ledgerDeposit 3 1 (100 * 10 ^ 24),
    Op.ledgerDeposit 3 2 (100 * 10 ^ 24),
    Op.addSimplePool 3 [1, 2] 25,
    Op.addLiquidity 3 1 0 [50 * 10 ^ 24, 10 * 10 ^ 24] Option.none,
    Op.addLiquidity 3 1 0 [50 * 10 ^ 24, 50 * 10 ^ 24] Option.none,
    Op.removeLiquidity 3 1 0 (10 ^ 24) [1, 1]]

/-- Small pool for the slippage witness (`test_deny_min_amount` shape):
equal reserves of 100, fee 25 bp. -/
def c3Pool : SimplePool := ⟨1, 2, 100, 100, 25, [], 0⟩

/-- Contract holding only `c3Pool`. -/
def c3Contract : Contract := { baseContract with pools := [Pool.simple c3Pool] }

/-- Contract with a registered but empty account 7 and an empty whitelist
(for the zero-deposit check). -/
def c10Contract : Contract := { baseContract with accounts := [(7, Account.empty)] }

/-- A run exercising the stable-swap path: user 7 deposits both tokens,
the owner creates a 2-token stable pool (18 decimals each, fee 25 bp,
amp 100), user 7 provides `10^6`/`10^6` liquidity and then swaps `10^5`
of token 1 for token 2. -/
def c6Ops : List Op :=
  [Op.registerAccount 7 [],
    Op.ledgerDeposit 7 1 1100000,
    Op.ledgerDeposit 7 2 1000000,
    Op.addStablePool 0 [1, 2] [18, 18] 25 100,
    Op.addStableLiquidity 7 1 0 [1000000, 1000000] 0,
    Op.executeActions 7 1 [Action.swap ⟨0, 1, some 100000, 2, 0⟩]]

/-- A funded 2-token stable pool (equal scaled reserves of `10^6`,
18 decimals, amp 100, fee 25 bp) for the stable slippage witness. -/
def c3sPool : StableSwapPool :=
  ⟨[1, 2], [18, 18], [1000000, 1000000], 100, 25, 0, [(7, 2000000)], 2000000⟩

/-- Contract whose pool 0 is the funded stable pool. -/
def c3sContract : Contract := { baseContract with pools := [Pool.stable c3sPool] }

/-! ## Arithmetic facts about the constant-product formula -/

/-- The swap output never exceeds the outgoing reserve. -/
theorem simpleSwapOut_le_reserve (x y dx fee : Nat) : simpleSwapOut x y dx fee ≤ y := by
  unfold simpleSwapOut
  by_cases h : dx * (FEE_DIVISOR - fee) = 0
  · simp [h]
  · calc dx * (FEE_DIVISOR - fee) * y / (x * FEE_DIVISOR + dx * (FEE_DIVISOR - fee))
        ≤ dx * (FEE_DIVISOR - fee) * y / (dx * (FEE_DIVISOR - fee)) :=
          Nat.div_le_div_left (Nat.le_add_left _ _) (Nat.pos_of_ne_zero h)
      _ = y := Nat.mul_div_cancel_left y (Nat.pos_of_ne_zero h)

/-- Flooring bound of the out-given-in division. -/
theorem simpleSwapOut_mul_le (x y dx fee : Nat) :
    simpleSwapOut x y dx fee * (x * FEE_DIVISOR + dx * (FEE_DIVISOR - fee)) ≤
      dx * (FEE_DIVISOR - fee) * y := by
  unfold simpleSwapOut
  exact Nat.div_mul_le_self _ _

/-- Round-trip bound at formula level: swapping `a` of token A for B on
reserves `(x, y)` and the full proceeds back to A returns at most `a`. -/
theorem simpleSwapOut_roundTrip_le (x y a fee : Nat) :
    simpleSwapOut (y - simpleSwapOut x y a fee) (x + a) (simpleSwapOut x y a fee) fee ≤ a := by
  have hdyy := simpleSwapOut_le_reserve x y a fee
  have hA := simpleSwapOut_mul_le x y a fee
  have hφF : FEE_DIVISOR - fee ≤ FEE_DIVISOR := Nat.sub_le _ _
  set dy := simpleSwapOut x y a fee with hdy
  have hkey : dy * x * FEE_DIVISOR ≤ a * (FEE_DIVISOR - fee) * (y - dy) := by
    have h1 : dy * (x * FEE_DIVISOR + a * (FEE_DIVISOR - fee)) =
        dy * x * FEE_DIVISOR + dy * (a * (FEE_DIVISOR - fee)) := by ring
    rw [h1] at hA
    have h2 : a * (FEE_DIVISOR - fee) * y =
        a * (FEE_DIVISOR - fee) * (y - dy) + a * (FEE_DIVISOR - fee) * dy := by
      rw [← Nat.mul_add, Nat.sub_add_cancel hdyy]
    have h3 : dy * (a * (FEE_DIVISOR - fee)) = a * (FEE_DIVISOR - fee) * dy := by ring
    linarith
  have hkey2 : dy * (FEE_DIVISOR - fee) * x ≤ a * FEE_DIVISOR * (y - dy) := by
    have m1 : dy * (FEE_DIVISOR - fee) * x ≤ dy * FEE_DIVISOR * x :=
      Nat.mul_le_mul_right x (Nat.mul_le_mul_left dy hφF)
    have m2 : dy * FEE_DIVISOR * x = dy * x * FEE_DIVISOR := by ring
    have m3 : a * (FEE_DIVISOR - fee) * (y - dy) ≤ a * FEE_DIVISOR * (y - dy) :=
      Nat.mul_le_mul_right _ (Nat.mul_le_mul_left a hφF)
    linarith
  have hnum : dy * (FEE_DIVISOR - fee) * (x + a) ≤
      a * ((y - dy) * FEE_DIVISOR + dy * (FEE_DIVISOR - fee)) := by
    have e1 : dy * (FEE_DIVISOR - fee) * (x + a) =
        dy * (FEE_DIVISOR - fee) * x + a * (dy * (FEE_DIVISOR - fee)) := by ring
    have e2 : a * ((y - dy) * FEE_DIVISOR + dy * (FEE_DIVISOR - fee)) =
        a * FEE_DIVISOR * (y - dy) + a * (dy * (FEE_DIVISOR - fee)) := by ring
    linarith
  show simpleSwapOut (y - dy) (x + a) dy fee ≤ a
  unfold simpleSwapOut
  by_cases hd : (y - dy) * FEE_DIVISOR + dy * (FEE_DIVISOR - fee) = 0
  · rw [hd]
    simp
  · calc dy * (FEE_DIVISOR - fee) * (x + a) / ((y - dy) * FEE_DIVISOR + dy * (FEE_DIVISOR - fee))
        ≤ a * ((y - dy) * FEE_DIVISOR + dy * (FEE_DIVISOR - fee)) /
            ((y - dy) * FEE_DIVISOR + dy * (FEE_DIVISOR - fee)) :=
          Nat.div_le_div_right hnum
      _ = a := Nat.mul_div_cancel a (Nat.pos_of_ne_zero hd)

/-! ## Association-list sum lemmas -/

theorem entrySum_creditTok (l : List (Nat × Nat)) (k0 a t : Nat) :
    entrySum (creditTok l k0 a) t = entrySum l t + (if k0 = t then a else 0) := by
  induction l with
  | nil => simp [creditTok, entrySum]
  | cons hd tl ih =>
    obtain ⟨k, v⟩ := hd
    simp only [creditTok]
    by_cases hk : k = k0
    · subst hk
      simp only [if_pos rfl, entrySum]
      split_ifs <;> omega
    · rw [if_neg hk]
      simp only [entrySum, ih]
      omega

theorem entrySum_debitTok {l : List (Nat × Nat)} {k0 a : Nat} {l' : List (Nat × Nat)}
    (h : debitTok l k0 a = some l') (t : Nat) :
    entrySum l' t + (if k0 = t then a else 0) = entrySum l t := by
  induction l generalizing l' with
  | nil => simp [debitTok] at h
  | cons hd tl ih =>
    obtain ⟨k, v⟩ := hd
    by_cases hk : k = k0
    · subst hk
      simp only [debitTok, if_pos rfl] at h
      by_cases hab : a ≤ v
      · rw [if_pos hab] at h
        cases h
        simp only [entrySum]
        split_ifs <;> omega
      · rw [if_neg hab] at h
        cases h
    · simp only [debitTok, if_neg hk] at h
      cases hrec : debitTok tl k0 a with
      | none => rw [hrec] at h; cases h
      | some tl' =>
        rw [hrec] at h
        cases h
        have := ih hrec
        simp only [entrySum]
        omega

theorem entrySum_append_zero (l : List (Nat × Nat)) (t0 t : Nat) :
    entrySum (l ++ [(t0, 0)]) t = entrySum l t := by
  induction l with
  | nil => simp [entrySum]
  | cons hd tl ih =>
    obtain ⟨k, v⟩ := hd
    simp only [List.cons_append, List.append_eq, entrySum, ih]

theorem entrySum_register_tokens (acc : Account) (ts : List Nat) (t : Nat) :
    entrySum (acc.register_tokens ts).tokens t = entrySum acc.tokens t := by
  induction ts generalizing acc with
  | nil => rfl
  | cons hd tl ih =>
    simp only [Account.register_tokens, List.foldl_cons]
    by_cases hs : (lookupTok acc.tokens hd).isSome
    · rw [if_pos hs]
      exact ih acc
    · rw [if_neg hs]
      have := ih ⟨acc.tokens ++ [(hd, 0)]⟩
      simp only [Account.register_tokens] at this ⊢
      rw [this]
      exact entrySum_append_zero _ _ _

theorem accountsTokenSum_astore (l : List (AccountId × Account)) (u : AccountId)
    (acc : Account) (t : TokenId) :
    accountsTokenSum (astore l u acc) t +
        entrySum ((alookup l u).getD Account.empty).tokens t =
      accountsTokenSum l t + entrySum acc.tokens t := by
  induction l with
  | nil => simp [astore, alookup, accountsTokenSum, Account.empty, entrySum]
  | cons hd tl ih =>
    obtain ⟨k, v⟩ := hd
    by_cases hk : k = u
    · subst hk
      simp only [astore, alookup, if_pos rfl, accountsTokenSum, Option.getD_some]
      simp
      omega
    · simp only [astore, alookup, if_neg hk, accountsTokenSum]
      omega

theorem poolsTokenSum_append (ps : List Pool) (p : Pool) (t : TokenId) :
    poolsTokenSum (ps ++ [p]) t = poolsTokenSum ps t + p.tokenAmount t := by
  induction ps with
  | nil => simp [poolsTokenSum]
  | cons hd tl ih =>
    simp only [List.cons_append, List.append_eq, poolsTokenSum, ih]
    omega

theorem poolsTokenSum_set {ps : List Pool} {i : Nat} {pool : Pool}
    (h : ps[i]? = some pool) (p' : Pool) (t : TokenId) :
    poolsTokenSum (ps.set i p') t + pool.tokenAmount t =
      poolsTokenSum ps t + p'.tokenAmount t := by
  induction ps generalizing i with
  | nil => simp at h
  | cons hd tl ih =>
    cases i with
    | zero =>
      simp only [List.getElem?_cons_zero, Option.some_inj] at h
      subst h
      simp only [List.set_cons_zero, poolsTokenSum]
      omega
    | succ n =>
      simp only [List.getElem?_cons_succ] at h
      simp only [List.set_cons_succ, poolsTokenSum]
      have := ih h
      omega

theorem tokenAmount_share_register (p : Pool) (acc : AccountId) (t : TokenId) :
    (p.share_register acc).tokenAmount t = p.tokenAmount t := by
  cases p with
  | simple sp =>
    simp only [Pool.share_register, SimplePool.share_register]
    split <;> rfl
  | stable sp =>
    simp only [Pool.share_register, StableSwapPool.share_register]
    split <;> rfl


/-! ## Pool operation preservation lemmas -/

theorem div_mul_le_of_le (s S x : Nat) (h : s ≤ S) : s * x / S ≤ x := by
  by_cases hS : S = 0
  · subst hS
    interval_cases s
    simp
  · calc s * x / S ≤ S * x / S := Nat.div_le_div_right (Nat.mul_le_mul_right x h)
      _ = x := Nat.mul_div_cancel_left x (Nat.pos_of_ne_zero hS)

theorem scaleFactor_pos (d : Nat) : 0 < scaleFactor d := by
  unfold scaleFactor
  exact Nat.pos_pow_of_pos _ (by decide)

theorem div_add_div_le (a b n : Nat) : a / n + b / n ≤ (a + b) / n := by
  rcases Nat.eq_zero_or_pos n with h | h
  · subst h; simp
  · rw [Nat.le_div_iff_mul_le h, Nat.add_mul]
    exact Nat.add_le_add (Nat.div_mul_le_self a n) (Nat.div_mul_le_self b n)

theorem idxOf?_some : ∀ {ts : List TokenId} {tk : TokenId} {k : Nat},
    idxOf? ts tk = some k → ts[k]? = some tk := by
  intro ts
  induction ts with
  | nil => intro tk k h; exact Option.noConfusion h
  | cons hd tl ih =>
    intro tk k h
    unfold idxOf? at h
    split_ifs at h with he
    · have hk := Option.some.inj h
      subst hk
      simp [he]
    · cases hrec : idxOf? tl tk with
      | none => rw [hrec] at h; exact Option.noConfusion h
      | some j =>
        rw [hrec] at h
        rw [Option.map_some'] at h
        have hk := Option.some.inj h
        subst hk
        simp only [List.getElem?_cons_succ]
        exact ih hrec

theorem getD_set_ne (l : List Nat) {i j : Nat} (h : i ≠ j) (v : Nat) :
    (l.set i v).getD j 0 = l.getD j 0 := by
  simp [List.getD, List.getElem?_set_ne h]

theorem entrySum_rawList_set :
    ∀ (toks : List TokenId) (cs ds : List Nat) (k : Nat) (tk : TokenId) (v : Nat) (t : TokenId),
    toks[k]? = some tk →
    cs.length = toks.length → ds.length = toks.length →
    entrySum (rawList toks (cs.set k v) ds) t +
        (if tk = t then cs.getD k 0 / scaleFactor (ds.getD k 0) else 0) =
      entrySum (rawList toks cs ds) t +
        (if tk = t then v / scaleFactor (ds.getD k 0) else 0) := by
  intro toks
  induction toks with
  | nil => intro cs ds k tk v t hk; simp at hk
  | cons hd tlt ih =>
    intro cs ds k tk v t hk hcs hds
    match cs, ds with
    | c :: cst, d :: dst =>
      simp only [List.length_cons, Nat.succ.injEq] at hcs hds
      cases k with
      | zero =>
        simp only [List.getElem?_cons_zero, Option.some_inj] at hk
        subst hk
        simp only [List.set_cons_zero, rawList, entrySum, List.getD_cons_zero]
        split_ifs <;> omega
      | succ n =>
        simp only [List.getElem?_cons_succ] at hk
        simp only [List.set_cons_succ, rawList, entrySum, List.getD_cons_succ]
        have := ih cst dst n tk v t hk hcs hds
        omega

theorem entrySum_rawList_add :
    ∀ (toks : List TokenId) (cs ds amounts : List Nat) (t : TokenId),
    cs.length = toks.length → ds.length = toks.length → amounts.length = toks.length →
    entrySum (rawList toks
        (List.zipWith (fun c ad => c + ad.1 * scaleFactor ad.2) cs (amounts.zip ds)) ds) t =
      entrySum (rawList toks cs ds) t + entrySum (toks.zip amounts) t := by
  intro toks
  induction toks with
  | nil =>
    intro cs ds amounts t hcs hds has
    match cs, ds, amounts with
    | [], [], [] => rfl
  | cons hd tlt ih =>
    intro cs ds amounts t hcs hds has
    match cs, ds, amounts with
    | c :: cst, d :: dst, a :: ast =>
      simp only [List.length_cons, Nat.succ.injEq] at hcs hds has
      simp only [List.zip, List.zipWith, rawList, entrySum]
      have hdiv : (c + a * scaleFactor d) / scaleFactor d = c / scaleFactor d + a :=
        Nat.add_mul_div_right c a (scaleFactor_pos d)
      have := ih cst dst ast t hcs hds has
      simp only [List.zip] at this
      rw [hdiv]
      split_ifs <;> omega

theorem entrySum_rawList_sub_le :
    ∀ (toks : List TokenId) (cs ds : List Nat) (q : Nat → Nat) (t : TokenId),
    (∀ x, q x ≤ x) →
    entrySum (rawList toks (cs.map fun x => x - q x) ds) t +
        entrySum (toks.zip (List.zipWith (fun x d => q x / scaleFactor d) cs ds)) t ≤
      entrySum (rawList toks cs ds) t := by
  intro toks
  induction toks with
  | nil =>
    intro cs ds q t hq
    match cs with
    | [] => simp [rawList, entrySum]
    | c :: cst => simp [rawList, entrySum]
  | cons hd tlt ih =>
    intro cs ds q t hq
    match cs, ds with
    | [], _ => simp [rawList, entrySum]
    | c :: cst, [] => simp [rawList, entrySum]
    | c :: cst, d :: dst =>
      simp only [List.map, List.zip, List.zipWith, rawList, entrySum]
      have hslot : (c - q c) / scaleFactor d + q c / scaleFactor d ≤ c / scaleFactor d := by
        calc (c - q c) / scaleFactor d + q c / scaleFactor d
            ≤ ((c - q c) + q c) / scaleFactor d := div_add_div_le _ _ _
          _ ≤ c / scaleFactor d := Nat.div_le_div_right (by have := hq c; omega)
      have := ih cst dst q t hq
      simp only [List.zip] at this
      split_ifs <;> omega

theorem entrySum_rawList_zeros :
    ∀ (toks : List TokenId) (ds : List Nat) (t : TokenId),
    entrySum (rawList toks (toks.map fun _ => 0) ds) t = 0 := by
  intro toks
  induction toks with
  | nil => intro ds t; rfl
  | cons hd tlt ih =>
    intro ds t
    match ds with
    | [] => rfl
    | d :: dst =>
      simp only [List.map, rawList, entrySum, Nat.zero_div, ih]
      split <;> rfl

theorem all_set_of_all {α : Type} {ps : List α} {P : α → Bool} {i : Nat} {p' : α}
    (hall : ps.all P = true) (hp' : P p' = true) : (ps.set i p').all P = true := by
  rw [List.all_eq_true] at hall ⊢
  intro x hx
  rcases List.mem_or_eq_of_mem_set hx with hmem | heq
  · exact hall x hmem
  · subst heq; exact hp'

theorem all_of_getElem? {α : Type} {ps : List α} {P : α → Bool} {i : Nat} {pool : α}
    (hall : ps.all P = true) (h : ps[i]? = some pool) : P pool = true := by
  rw [List.all_eq_true] at hall
  exact hall pool (List.mem_iff_getElem?.mpr ⟨i, h⟩)

theorem all_append_singleton {α : Type} {ps : List α} {P : α → Bool} {q : α}
    (hall : ps.all P = true) (hq : P q = true) : (ps ++ [q]).all P = true := by
  simp [List.all_append, hall, hq]

theorem all_feeOk_of_all_simple {ps : List Pool} (h : ps.all Pool.isSimple = true) :
    ps.all Pool.feeOk = true := by
  rw [List.all_eq_true] at h ⊢
  intro p hp
  have hs := h p hp
  cases p with
  | simple sp => rfl
  | stable sp => simp [Pool.isSimple] at hs

theorem StableSwapPool_swap_min {p : StableSwapPool} {tin : TokenId} {ain : Nat}
    {tout : TokenId} {minOut : Nat} {p' : StableSwapPool} {out : Nat}
    (h : p.swap tin ain tout minOut = .ok (p', out)) : minOut ≤ out := by
  unfold StableSwapPool.swap at h
  split_ifs at h with hal
  cases hkin : idxOf? p.token_account_ids tin with
  | none => rw [hkin] at h; exact Except.noConfusion h
  | some kin =>
    rw [hkin] at h
    cases hkout : idxOf? p.token_account_ids tout with
    | none => rw [hkout] at h; exact Except.noConfusion h
    | some kout =>
      rw [hkout] at h
      dsimp only at h
      split_ifs at h with hkk
      cases hd0 : computeD p.c_amounts p.amp_factor with
      | error e => rw [hd0] at h; exact Except.noConfusion h
      | ok d0 =>
        rw [hd0] at h
        dsimp only at h
        cases hy : computeY (p.c_amounts.set kin
            (p.c_amounts.getD kin 0 + ain * scaleFactor (p.decimals.getD kin 0)))
            kout d0 p.amp_factor with
        | error e => rw [hy] at h; exact Except.noConfusion h
        | ok y =>
          rw [hy] at h
          dsimp only at h
          split_ifs at h with hres hmin
          simp only [Except.ok.injEq, Prod.mk.injEq] at h
          obtain ⟨hp, ho⟩ := h
          subst ho
          omega

theorem StableSwapPool_swap_conserve {p : StableSwapPool} {tin : TokenId} {ain : Nat}
    {tout : TokenId} {minOut : Nat} {p' : StableSwapPool} {out : Nat}
    (hfee : p.total_fee ≤ FEE_DIVISOR)
    (h : p.swap tin ain tout minOut = .ok (p', out)) :
    p'.total_fee = p.total_fee ∧ p'.admin_fee = p.admin_fee ∧
    ∀ t, entrySum (rawList p'.token_account_ids p'.c_amounts p'.decimals) t +
        (if tout = t then out else 0) ≤
      entrySum (rawList p.token_account_ids p.c_amounts p.decimals) t +
        (if tin = t then ain else 0) := by
  unfold StableSwapPool.swap at h
  split_ifs at h with hal
  cases hkin : idxOf? p.token_account_ids tin with
  | none => rw [hkin] at h; exact Except.noConfusion h
  | some kin =>
    rw [hkin] at h
    cases hkout : idxOf? p.token_account_ids tout with
    | none => rw [hkout] at h; exact Except.noConfusion h
    | some kout =>
      rw [hkout] at h
      dsimp only at h
      split_ifs at h with hkk
      cases hd0 : computeD p.c_amounts p.amp_factor with
      | error e => rw [hd0] at h; exact Except.noConfusion h
      | ok d0 =>
        rw [hd0] at h
        dsimp only at h
        cases hy : computeY (p.c_amounts.set kin
            (p.c_amounts.getD kin 0 + ain * scaleFactor (p.decimals.getD kin 0)))
            kout d0 p.amp_factor with
        | error e => rw [hy] at h; exact Except.noConfusion h
        | ok y =>
          rw [hy] at h
          dsimp only at h
          split_ifs at h with hres hmin
          simp only [Except.ok.injEq, Prod.mk.injEq] at h
          obtain ⟨hp, ho⟩ := h
          obtain ⟨hds, hcs⟩ := hal
          have htin := idxOf?_some hkin
      /- tin and tout are the first occurrences at distinct indices, so they differ -/
          have htout := idxOf?_some hkout
          have hne : tin ≠ tout := by
            intro he
            rw [he] at hkin
            rw [hkin] at hkout
            exact hkk (Option.some.inj hkout)
          subst hp
          subst ho
          refine ⟨rfl, rfl, ?_⟩
          intro t
          dsimp only
          have hfee_le : (p.c_amounts.getD kout 0 - (y + 1)) * p.total_fee / FEE_DIVISOR ≤
              p.c_amounts.getD kout 0 - (y + 1) := by
            calc (p.c_amounts.getD kout 0 - (y + 1)) * p.total_fee / FEE_DIVISOR
                ≤ (p.c_amounts.getD kout 0 - (y + 1)) * FEE_DIVISOR / FEE_DIVISOR :=
                  Nat.div_le_div_right (Nat.mul_le_mul_left _ hfee)
              _ = p.c_amounts.getD kout 0 - (y + 1) := Nat.mul_div_cancel _ (by decide)
          generalize hX : (p.c_amounts.getD kout 0 - (y + 1)) * p.total_fee / FEE_DIVISOR = X
            at hfee_le ⊢
          generalize hQ : X * p.admin_fee / FEE_DIVISOR = Q
          have hA := entrySum_rawList_set p.token_account_ids
            (p.c_amounts.set kin
              (p.c_amounts.getD kin 0 + ain * scaleFactor (p.decimals.getD kin 0)))
            p.decimals kout tout (y + (X - Q)) t htout (by simp [hcs]) hds
          have hB := entrySum_rawList_set p.token_account_ids p.c_amounts p.decimals kin tin
            (p.c_amounts.getD kin 0 + ain * scaleFactor (p.decimals.getD kin 0)) t htin hcs hds
          have hget : (p.c_amounts.set kin
              (p.c_amounts.getD kin 0 + ain * scaleFactor (p.decimals.getD kin 0))).getD kout 0 =
              p.c_amounts.getD kout 0 := getD_set_ne p.c_amounts hkk _
          rw [hget] at hA
          have hvin : (p.c_amounts.getD kin 0 + ain * scaleFactor (p.decimals.getD kin 0)) /
              scaleFactor (p.decimals.getD kin 0) =
              p.c_amounts.getD kin 0 / scaleFactor (p.decimals.getD kin 0) + ain :=
            Nat.add_mul_div_right _ _ (scaleFactor_pos _)
          have hvout : (y + (X - Q)) / scaleFactor (p.decimals.getD kout 0) +
              (p.c_amounts.getD kout 0 - (y + 1) - X) /
                scaleFactor (p.decimals.getD kout 0) ≤
              p.c_amounts.getD kout 0 / scaleFactor (p.decimals.getD kout 0) := by
            calc (y + (X - Q)) / scaleFactor (p.decimals.getD kout 0) +
                (p.c_amounts.getD kout 0 - (y + 1) - X) /
                  scaleFactor (p.decimals.getD kout 0)
                ≤ ((y + (X - Q)) + (p.c_amounts.getD kout 0 - (y + 1) - X)) /
                  scaleFactor (p.decimals.getD kout 0) := div_add_div_le _ _ _
              _ ≤ p.c_amounts.getD kout 0 / scaleFactor (p.decimals.getD kout 0) :=
                  Nat.div_le_div_right (by omega)
          split_ifs at hA hB ⊢ <;> omega

theorem StableSwapPool_add_conserve {p : StableSwapPool} {sender : AccountId}
    {amounts : List Nat} {minS : Nat} {p' : StableSwapPool} {minted : Nat}
    (h : p.add_stable_liquidity sender amounts minS = .ok (p', minted)) :
    p'.total_fee = p.total_fee ∧ p'.admin_fee = p.admin_fee ∧
    ∀ t, entrySum (rawList p'.token_account_ids p'.c_amounts p'.decimals) t =
      entrySum (rawList p.token_account_ids p.c_amounts p.decimals) t +
        entrySum (p.token_account_ids.zip amounts) t := by
  unfold StableSwapPool.add_stable_liquidity at h
  split_ifs at h with hguard hsup
  · obtain ⟨⟨hds, hcs⟩, has⟩ := hguard
    cases hd1 : computeD (List.zipWith (fun c ad => c + ad.1 * scaleFactor ad.2) p.c_amounts
        (amounts.zip p.decimals)) p.amp_factor with
    | error e => rw [hd1] at h; exact Except.noConfusion h
    | ok d1 =>
      rw [hd1] at h
      dsimp only at h
      split_ifs at h with hmin
      simp only [Except.ok.injEq, Prod.mk.injEq] at h
      obtain ⟨hp, hm⟩ := h
      subst hp
      refine ⟨rfl, rfl, ?_⟩
      intro t
      dsimp only
      exact entrySum_rawList_add p.token_account_ids p.c_amounts p.decimals amounts t
        hcs hds has
  · obtain ⟨⟨hds, hcs⟩, has⟩ := hguard
    cases hd0 : computeD p.c_amounts p.amp_factor with
    | error e => rw [hd0] at h; exact Except.noConfusion h
    | ok d0 =>
      rw [hd0] at h
      dsimp only at h
      cases hd1 : computeD (List.zipWith (fun c ad => c + ad.1 * scaleFactor ad.2) p.c_amounts
          (amounts.zip p.decimals)) p.amp_factor with
      | error e => rw [hd1] at h; exact Except.noConfusion h
      | ok d1 =>
        rw [hd1] at h
        dsimp only at h
        cases hd2 : computeD (List.zipWith (fun x1 x0 =>
            x1 - (if x1 ≤ d1 * x0 / d0 then d1 * x0 / d0 - x1 else x1 - d1 * x0 / d0) *
              p.total_fee * p.token_account_ids.length /
              (4 * (p.token_account_ids.length - 1) * FEE_DIVISOR))
            (List.zipWith (fun c ad => c + ad.1 * scaleFactor ad.2) p.c_amounts
              (amounts.zip p.decimals)) p.c_amounts) p.amp_factor with
        | error e => rw [hd2] at h; exact Except.noConfusion h
        | ok d2 =>
          rw [hd2] at h
          dsimp only at h
          split_ifs at h with hmin
          simp only [Except.ok.injEq, Prod.mk.injEq] at h
          obtain ⟨hp, hm⟩ := h
          subst hp
          refine ⟨rfl, rfl, ?_⟩
          intro t
          dsimp only
          exact entrySum_rawList_add p.token_account_ids p.c_amounts p.decimals amounts t
            hcs hds has

theorem StableSwapPool_remove_conserve {p : StableSwapPool} {sender : AccountId}
    {shares : Nat} {mins : List Nat} {p' : StableSwapPool} {amounts : List Nat}
    (h : p.remove_liquidity sender shares mins = .ok (p', amounts)) :
    p'.total_fee = p.total_fee ∧ p'.admin_fee = p.admin_fee ∧
    p'.token_account_ids = p.token_account_ids ∧
    ∀ t, entrySum (rawList p'.token_account_ids p'.c_amounts p'.decimals) t +
        entrySum (p.token_account_ids.zip amounts) t ≤
      entrySum (rawList p.token_account_ids p.c_amounts p.decimals) t := by
  unfold StableSwapPool.remove_liquidity at h
  split_ifs at h with hguard hsup hminok
  · obtain ⟨⟨hds, hcs⟩, hms⟩ := hguard
    cases hdeb : debitTok p.shares sender shares with
    | none => rw [hdeb] at h; exact Except.noConfusion h
    | some shares' =>
      rw [hdeb] at h
      dsimp only at h
      simp only [Except.ok.injEq, Prod.mk.injEq] at h
      obtain ⟨hp, ha⟩ := h
      subst hp
      subst ha
      refine ⟨rfl, rfl, rfl, ?_⟩
      intro t
      dsimp only
      have hq : ∀ x, shares * x / p.shares_total_supply ≤ x := fun x =>
        div_mul_le_of_le shares p.shares_total_supply x hsup
      exact entrySum_rawList_sub_le p.token_account_ids p.c_amounts p.decimals
        (fun x => shares * x / p.shares_total_supply) t hq
  · cases hdeb : debitTok p.shares sender shares with
    | none => rw [hdeb] at h; exact Except.noConfusion h
    | some shares' => rw [hdeb] at h; exact Except.noConfusion h
  · cases hdeb : debitTok p.shares sender shares with
    | none => rw [hdeb] at h; exact Except.noConfusion h
    | some shares' => rw [hdeb] at h; exact Except.noConfusion h

theorem StableSwapPool_new_ok {tokens : List TokenId} {decimals : List Nat} {amp fee : Nat}
    {p : StableSwapPool} (h : StableSwapPool.new tokens decimals amp fee = .ok p) :
    p = ⟨tokens, decimals, tokens.map (fun _ => 0), amp, fee, 0, [], 0⟩ ∧
      fee < FEE_DIVISOR := by
  unfold StableSwapPool.new at h
  split_ifs at h with h1 h2
  have hx := Except.ok.inj h
  exact ⟨hx.symm, h1⟩

theorem StableSwapPool_share_register_total_fee (p : StableSwapPool) (a : AccountId) :
    (p.share_register a).total_fee = p.total_fee := by
  unfold StableSwapPool.share_register
  split <;> rfl

theorem SimplePool_swap_tokenAmount {p : SimplePool} {tin : TokenId} {ain : Nat}
    {tout : TokenId} {minOut : Nat} {p' : SimplePool} {out : Nat}
    (h : p.swap tin ain tout minOut = .ok (p', out)) (t : TokenId) :
    (Pool.simple p').tokenAmount t + (if tout = t then out else 0) =
      (Pool.simple p).tokenAmount t + (if tin = t then ain else 0) := by
  unfold SimplePool.swap at h
  split_ifs at h with h1 h2 h3 h4 h5 h6 h7 h8 h9
  all_goals simp only [Except.ok.injEq, Prod.mk.injEq] at h
  all_goals obtain ⟨hp, ho⟩ := h
  all_goals subst hp
  all_goals subst ho
  · obtain ⟨hin, hout⟩ := h2
    subst hin
    subst hout
    have hle := simpleSwapOut_le_reserve p.amount0 p.amount1 ain p.total_fee
    simp only [Pool.tokenAmount]
    split_ifs <;> omega
  · obtain ⟨hin, hout⟩ := h6
    subst hin
    subst hout
    have hle := simpleSwapOut_le_reserve p.amount1 p.amount0 ain p.total_fee
    simp only [Pool.tokenAmount]
    split_ifs <;> omega

theorem Pool_swap_conserve_le {pool : Pool} {tin : TokenId} {ain : Nat} {tout : TokenId}
    {minOut : Nat} {pool' : Pool} {out : Nat}
    (hfee : Pool.feeOk pool = true)
    (h : pool.swap tin ain tout minOut = .ok (pool', out)) :
    (∀ t, pool'.tokenAmount t + (if tout = t then out else 0) ≤
      pool.tokenAmount t + (if tin = t then ain else 0)) ∧
    Pool.feeOk pool' = true ∧ pool'.isSimple = pool.isSimple ∧
    (pool.isSimple = true →
      ∀ t, pool'.tokenAmount t + (if tout = t then out else 0) =
        pool.tokenAmount t + (if tin = t then ain else 0)) := by
  cases pool with
  | simple p =>
    simp only [Pool.swap] at h
    cases hs : p.swap tin ain tout minOut with
    | error e => rw [hs] at h; exact Except.noConfusion h
    | ok r =>
      rw [hs] at h
      simp only [Except.map, Except.ok.injEq, Prod.mk.injEq] at h
      obtain ⟨hp, ho⟩ := h
      subst hp
      subst ho
      exact ⟨fun t => Nat.le_of_eq (SimplePool_swap_tokenAmount (by rw [hs]) t), rfl, rfl,
        fun _ t => SimplePool_swap_tokenAmount (by rw [hs]) t⟩
  | stable p =>
    simp only [Pool.swap] at h
    cases hs : p.swap tin ain tout minOut with
    | error e => rw [hs] at h; exact Except.noConfusion h
    | ok r =>
      rw [hs] at h
      simp only [Except.map, Except.ok.injEq, Prod.mk.injEq] at h
      obtain ⟨hp, ho⟩ := h
      obtain ⟨p2, out2⟩ := r
      subst hp
      subst ho
      simp only [Pool.feeOk, decide_eq_true_eq] at hfee
      obtain ⟨hfe, had, hsum⟩ := StableSwapPool_swap_conserve hfee hs
      refine ⟨fun t => ?_, ?_, rfl, fun hcon => ?_⟩
      · simpa only [Pool.tokenAmount] using hsum t
      · simp only [Pool.feeOk, decide_eq_true_eq, hfe]
        exact hfee
      · exact Bool.noConfusion (by simpa only [Pool.isSimple] using hcon : false = true)


theorem Account_withdraw_entrySum {acc : Account} {t0 : TokenId} {a : Nat} {acc' : Account}
    (h : acc.withdraw t0 a = .ok acc') (t : TokenId) :
    entrySum acc'.tokens t + (if t0 = t then a else 0) = entrySum acc.tokens t := by
  unfold Account.withdraw at h
  cases hd : debitTok acc.tokens t0 a with
  | none => rw [hd] at h; exact Except.noConfusion h
  | some l =>
    rw [hd] at h
    simp only [Except.ok.injEq] at h
    subst h
    exact entrySum_debitTok hd t

theorem Account_deposit_entrySum (acc : Account) (t0 : TokenId) (a : Nat) (t : TokenId) :
    entrySum ((acc.deposit t0 a).tokens) t = entrySum acc.tokens t + (if t0 = t then a else 0) :=
  entrySum_creditTok acc.tokens t0 a t

theorem withdraw_foldl :
    ∀ {pairs : List (TokenId × Nat)} {acc acc' : Account},
    List.foldlM (fun (a : Account) (ta : TokenId × Nat) => a.withdraw ta.1 ta.2) acc pairs
      = .ok acc' →
    ∀ t, entrySum acc'.tokens t + entrySum pairs t = entrySum acc.tokens t := by
  intro pairs
  induction pairs with
  | nil =>
    intro acc acc' h t
    simp only [List.foldlM] at h
    have := Except.ok.inj h
    subst this
    simp [entrySum]
  | cons hd tl ih =>
    intro acc acc' h t
    simp only [List.foldlM, bind, Except.bind] at h
    cases hw : acc.withdraw hd.1 hd.2 with
    | error e => rw [hw] at h; exact Except.noConfusion h
    | ok acc1 =>
      rw [hw] at h
      have h1 := Account_withdraw_entrySum hw t
      have h2 := ih h t
      simp only [entrySum]
      omega

theorem deposit_foldl :
    ∀ (pairs : List (TokenId × Nat)) (acc : Account) (t : TokenId),
    entrySum ((pairs.foldl (fun (a : Account) (ta : TokenId × Nat) =>
        a.deposit ta.1 ta.2) acc).tokens) t =
      entrySum acc.tokens t + entrySum pairs t := by
  intro pairs
  induction pairs with
  | nil => intro acc t; simp [entrySum]
  | cons hd tl ih =>
    intro acc t
    simp only [List.foldl]
    rw [ih]
    have := Account_deposit_entrySum acc hd.1 hd.2 t
    simp only [entrySum]
    omega

theorem SimplePool_add_liquidity_ok {p : SimplePool} {sender : AccountId} {a0 a1 : Nat}
    {p' : SimplePool} {c0 c1 m : Nat}
    (h : p.add_liquidity sender a0 a1 = .ok (p', c0, c1, m)) :
    p'.token0 = p.token0 ∧ p'.token1 = p.token1 ∧
      p'.amount0 = p.amount0 + c0 ∧ p'.amount1 = p.amount1 + c1 := by
  unfold SimplePool.add_liquidity at h
  split_ifs at h with h1 h2
  all_goals first
    | exact Except.noConfusion h
    | (simp only [Except.ok.injEq, Prod.mk.injEq] at h
       obtain ⟨hp, hc0, hc1, hm⟩ := h
       subst hp
       subst hc0
       subst hc1
       exact ⟨rfl, rfl, rfl, rfl⟩)

theorem SimplePool_remove_liquidity_ok {p : SimplePool} {sender : AccountId} {s m0 m1 : Nat}
    {p' : SimplePool} {a0 a1 : Nat}
    (h : p.remove_liquidity sender s m0 m1 = .ok (p', a0, a1)) :
    p'.token0 = p.token0 ∧ p'.token1 = p.token1 ∧
      a0 ≤ p.amount0 ∧ a1 ≤ p.amount1 ∧
      p'.amount0 = p.amount0 - a0 ∧ p'.amount1 = p.amount1 - a1 := by
  unfold SimplePool.remove_liquidity at h
  cases hd : debitTok p.shares sender s with
  | none => rw [hd] at h; exact Except.noConfusion h
  | some shares' =>
    rw [hd] at h
    dsimp only at h
    split_ifs at h with h1 h2
    all_goals first
      | exact Except.noConfusion h
      | (simp only [Except.ok.injEq, Prod.mk.injEq] at h
         obtain ⟨hp, ha0, ha1⟩ := h
         subst hp
         subst ha0
         subst ha1
         exact ⟨rfl, rfl,
           div_mul_le_of_le s p.shares_total_supply p.amount0 h1,
           div_mul_le_of_le s p.shares_total_supply p.amount1 h1, rfl, rfl⟩)


/-! ## Executor conservation lemmas -/

theorem internal_pool_swap_conserve {c : Contract} {pid : Nat} {tin : TokenId} {ain : Nat}
    {tout : TokenId} {minOut : Nat} {c' : Contract} {out : Nat}
    (hfee : c.pools.all Pool.feeOk = true)
    (h : c.internal_pool_swap pid tin ain tout minOut = .ok (c', out)) (t : TokenId) :
    c'.accounts = c.accounts ∧
    c'.pools.all Pool.feeOk = true ∧
    poolsTokenSum c'.pools t + (if tout = t then out else 0) ≤
      poolsTokenSum c.pools t + (if tin = t then ain else 0) ∧
    (c.pools.all Pool.isSimple = true →
      poolsTokenSum c'.pools t + (if tout = t then out else 0) =
        poolsTokenSum c.pools t + (if tin = t then ain else 0) ∧
      c'.pools.all Pool.isSimple = true) := by
  unfold Contract.internal_pool_swap at h
  cases hp : c.pools[pid]? with
  | none => rw [hp] at h; exact Except.noConfusion h
  | some pool =>
    rw [hp] at h
    dsimp only at h
    cases hs : pool.swap tin ain tout minOut with
    | error e => rw [hs] at h; exact Except.noConfusion h
    | ok r =>
      rw [hs] at h
      obtain ⟨pool', out'⟩ := r
      simp only [bind, Except.bind, Except.ok.injEq, Prod.mk.injEq] at h
      obtain ⟨hc, ho⟩ := h
      subst hc
      subst ho
      have hpool := all_of_getElem? hfee hp
      obtain ⟨hle, hfee', hkind, hexact⟩ := Pool_swap_conserve_le hpool hs
      have hset := poolsTokenSum_set hp pool' t
      refine ⟨rfl, ?_, ?_, fun hsimp => ?_⟩
      · exact all_set_of_all hfee hfee'
      · have := hle t
        dsimp only
        omega
      · have hpools := all_of_getElem? hsimp hp
        have heq := hexact hpools t
        constructor
        · dsimp only
          omega
        · dsimp only
          exact all_set_of_all hsimp (hkind.trans hpools)

theorem internal_execute_action_conserve {c : Contract} {acct : Account} {action : Action}
    {res : ActionResult} {c' : Contract} {acct' : Account} {res' : ActionResult}
    (hfee : c.pools.all Pool.feeOk = true)
    (h : c.internal_execute_action acct action res = .ok (c', acct', res')) (t : TokenId) :
    c'.accounts = c.accounts ∧
    c'.pools.all Pool.feeOk = true ∧
    entrySum acct'.tokens t + poolsTokenSum c'.pools t ≤
      entrySum acct.tokens t + poolsTokenSum c.pools t ∧
    (c.pools.all Pool.isSimple = true →
      entrySum acct'.tokens t + poolsTokenSum c'.pools t =
        entrySum acct.tokens t + poolsTokenSum c.pools t ∧
      c'.pools.all Pool.isSimple = true) := by
  obtain ⟨sa⟩ := action
  obtain ⟨pid, tin, ain?, tout, minOut⟩ := sa
  unfold Contract.internal_execute_action at h
  dsimp only at h
  have hstep : ∀ (ain : Nat),
      (acct.withdraw tin ain >>= fun account =>
        (c.internal_pool_swap pid tin ain tout minOut) >>=
          fun r => Except.ok (r.1, account.deposit tout r.2, ActionResult.amount r.2))
        = .ok (c', acct', res') →
      c'.accounts = c.accounts ∧
      c'.pools.all Pool.feeOk = true ∧
      entrySum acct'.tokens t + poolsTokenSum c'.pools t ≤
        entrySum acct.tokens t + poolsTokenSum c.pools t ∧
      (c.pools.all Pool.isSimple = true →
        entrySum acct'.tokens t + poolsTokenSum c'.pools t =
          entrySum acct.tokens t + poolsTokenSum c.pools t ∧
        c'.pools.all Pool.isSimple = true) := by
    intro ain hh
    cases hw : acct.withdraw tin ain with
    | error e => rw [hw] at hh; exact Except.noConfusion hh
    | ok acct2 =>
      rw [hw] at hh
      simp only [bind, Except.bind] at hh
      cases hs : c.internal_pool_swap pid tin ain tout minOut with
      | error e => rw [hs] at hh; exact Except.noConfusion hh
      | ok r =>
        rw [hs] at hh
        obtain ⟨c2, out⟩ := r
        simp only [Except.ok.injEq, Prod.mk.injEq] at hh
        obtain ⟨hc, ha, hr⟩ := hh
        subst hc
        subst ha
        subst hr
        obtain ⟨hacc, hfee', hle, hexact⟩ := internal_pool_swap_conserve hfee hs t
        have hw' := Account_withdraw_entrySum hw t
        have hd := Account_deposit_entrySum acct2 tout out t
        refine ⟨hacc, hfee', by omega, fun hsimp => ?_⟩
        obtain ⟨heq, hsimp'⟩ := hexact hsimp
        exact ⟨by omega, hsimp'⟩
  cases ain? with
  | some v =>
    simp only [bind, Except.bind] at h
    exact hstep v h
  | none =>
    cases res with
    | none =>
      simp only [ActionResult.to_amount, bind, Except.bind] at h
      exact Except.noConfusion h
    | amount a =>
      simp only [ActionResult.to_amount, bind, Except.bind] at h
      exact hstep a h

theorem internal_execute_actions_conserve {c : Contract} {acct : Account}
    {actions : List Action} {res : ActionResult} {c' : Contract} {acct' : Account}
    {res' : ActionResult}
    (hfee : c.pools.all Pool.feeOk = true)
    (h : c.internal_execute_actions acct actions res = .ok (c', acct', res')) (t : TokenId) :
    c'.accounts = c.accounts ∧
    c'.pools.all Pool.feeOk = true ∧
    entrySum acct'.tokens t + poolsTokenSum c'.pools t ≤
      entrySum acct.tokens t + poolsTokenSum c.pools t ∧
    (c.pools.all Pool.isSimple = true →
      entrySum acct'.tokens t + poolsTokenSum c'.pools t =
        entrySum acct.tokens t + poolsTokenSum c.pools t ∧
      c'.pools.all Pool.isSimple = true) := by
  induction actions generalizing c acct res with
  | nil =>
    unfold Contract.internal_execute_actions at h
    simp only [Except.ok.injEq, Prod.mk.injEq] at h
    obtain ⟨hc, ha, hr⟩ := h
    subst hc
    subst ha
    exact ⟨rfl, hfee, Nat.le_refl _, fun hsimp => ⟨rfl, hsimp⟩⟩
  | cons action rest ih =>
    unfold Contract.internal_execute_actions at h
    cases h1 : c.internal_execute_action acct action res with
    | error e =>
      rw [h1] at h
      exact Except.noConfusion h
    | ok trip =>
      rw [h1] at h
      obtain ⟨c2, acct2, res2⟩ := trip
      simp only [bind, Except.bind] at h
      obtain ⟨hacc1, hfee1, hle1, hex1⟩ := internal_execute_action_conserve hfee h1 t
      obtain ⟨hacc2, hfee2, hle2, hex2⟩ := ih hfee1 h
      refine ⟨by rw [hacc2, hacc1], hfee2, by omega, fun hsimp => ?_⟩
      obtain ⟨heq1, hsimp1⟩ := hex1 hsimp
      obtain ⟨heq2, hsimp2⟩ := hex2 hsimp1
      exact ⟨by omega, hsimp2⟩

theorem execute_actions_conserve {c : Contract} {att : Nat} {actions : List Action}
    {sender : AccountId} {c' : Contract} {r : ActionResult}
    (hfee : c.pools.all Pool.feeOk = true)
    (h : c.execute_actions att actions sender = .ok (c', r)) (t : TokenId) :
    totalOfToken c' t ≤ totalOfToken c t ∧
    c'.pools.all Pool.feeOk = true ∧
    (c.pools.all Pool.isSimple = true →
      totalOfToken c' t = totalOfToken c t ∧ c'.pools.all Pool.isSimple = true) := by
  unfold Contract.execute_actions at h
  cases har : c.assert_contract_running with
  | error e =>
    rw [har] at h
    exact Except.noConfusion h
  | ok u =>
    rw [har] at h
    simp only [bind, Except.bind] at h
    unfold Contract.internal_unwrap_account at h
    cases hacc : alookup c.accounts sender with
    | none =>
      rw [hacc] at h
      exact Except.noConfusion h
    | some acct =>
      rw [hacc] at h
      dsimp only at h
      split_ifs at h with hchk
      · cases hrun : c.internal_execute_actions acct actions ActionResult.none with
        | error e =>
          rw [hrun] at h
          exact Except.noConfusion h
        | ok trip =>
          rw [hrun] at h
          obtain ⟨c2, acct2, res2⟩ := trip
          simp only [bind, Except.bind, Except.ok.injEq, Prod.mk.injEq] at h
          obtain ⟨hc, hr⟩ := h
          subst hc
          subst hr
          obtain ⟨haccs, hfee2, hle, hex⟩ := internal_execute_actions_conserve hfee hrun t
          have hst := accountsTokenSum_astore c2.accounts sender acct2 t
          rw [haccs] at hst
          rw [hacc] at hst
          simp only [Option.getD_some] at hst
          refine ⟨?_, hfee2, fun hsimp => ?_⟩
          · unfold totalOfToken Contract.internal_save_account
            dsimp only
            rw [haccs]
            omega
          · obtain ⟨heq, hsimp2⟩ := hex hsimp
            constructor
            · unfold totalOfToken Contract.internal_save_account
              dsimp only
              rw [haccs]
              omega
            · unfold Contract.internal_save_account
              dsimp only
              exact hsimp2



theorem register_account_total (c : Contract) (user : AccountId) (ts : List TokenId)
    (t : TokenId) : totalOfToken (c.register_account user ts) t = totalOfToken c t := by
  unfold Contract.register_account Contract.internal_save_account
    Contract.internal_unwrap_or_default_account totalOfToken
  dsimp only
  have hst := accountsTokenSum_astore c.accounts user
    (((alookup c.accounts user).getD Account.empty).register_tokens ts) t
  have hreg := entrySum_register_tokens ((alookup c.accounts user).getD Account.empty) ts t
  omega

theorem ledger_deposit_total (c : Contract) (user : AccountId) (t0 : TokenId) (a : Nat)
    (t : TokenId) :
    totalOfToken (c.ledger_deposit user t0 a) t =
      totalOfToken c t + (if t0 = t then a else 0) := by
  unfold Contract.ledger_deposit Contract.internal_save_account
    Contract.internal_unwrap_or_default_account totalOfToken
  dsimp only
  have hst := accountsTokenSum_astore c.accounts user
    (((alookup c.accounts user).getD Account.empty).deposit t0 a) t
  have hdep := Account_deposit_entrySum ((alookup c.accounts user).getD Account.empty) t0 a t
  omega

theorem ledger_withdraw_total {c : Contract} {user : AccountId} {t0 : TokenId} {a : Nat}
    {c' : Contract} (h : c.ledger_withdraw user t0 a = .ok c') (t : TokenId) :
    totalOfToken c' t + (if t0 = t then a else 0) = totalOfToken c t := by
  unfold Contract.ledger_withdraw Contract.internal_unwrap_account at h
  cases hacc : alookup c.accounts user with
  | none => rw [hacc] at h; exact Except.noConfusion h
  | some acct =>
    rw [hacc] at h
    simp only [bind, Except.bind] at h
    cases hw : acct.withdraw t0 a with
    | error e => rw [hw] at h; exact Except.noConfusion h
    | ok acct2 =>
      rw [hw] at h
      simp only [Except.ok.injEq] at h
      subst h
      unfold totalOfToken Contract.internal_save_account
      dsimp only
      have hst := accountsTokenSum_astore c.accounts user acct2 t
      rw [hacc] at hst
      simp only [Option.getD_some] at hst
      have hw' := Account_withdraw_entrySum hw t
      omega


theorem tokenAmount_new_simple {tokens : List TokenId} {fee : Nat} {p : SimplePool}
    (h : SimplePool.new tokens fee = .ok p) (t : TokenId) :
    (Pool.simple p).tokenAmount t = 0 := by
  unfold SimplePool.new at h
  match tokens, h with
  | [t0, t1], h =>
    simp only [Except.ok.injEq] at h
    subst h
    simp [Pool.tokenAmount]

theorem add_simple_pool_total {c : Contract} {caller : AccountId} {tokens : List TokenId}
    {fee : Nat} {c' : Contract} {id : Nat}
    (h : c.add_simple_pool caller tokens fee = .ok (c', id)) (t : TokenId) :
    totalOfToken c' t = totalOfToken c t := by
  unfold Contract.add_simple_pool at h
  cases har : c.assert_contract_running with
  | error e => rw [har] at h; exact Except.noConfusion h
  | ok u =>
    rw [har] at h
    simp only [bind, Except.bind] at h
    cases hck : checkTokenDuplicates tokens with
    | error e => rw [hck] at h; exact Except.noConfusion h
    | ok v =>
      rw [hck] at h
      cases hnew : SimplePool.new tokens fee with
      | error e => rw [hnew] at h; exact Except.noConfusion h
      | ok p =>
        rw [hnew] at h
        unfold Contract.internal_add_pool at h
        dsimp only at h
        simp only [Except.ok.injEq, Prod.mk.injEq] at h
        obtain ⟨hc, hid⟩ := h
        subst hc
        unfold totalOfToken
        dsimp only
        rw [poolsTokenSum_append]
        rw [tokenAmount_share_register]
        rw [tokenAmount_new_simple hnew]
        omega

theorem add_stable_swap_pool_total {c : Contract} {caller : AccountId}
    {tokens : List TokenId} {decimals : List Nat} {fee amp : Nat} {c' : Contract} {id : Nat}
    (h : c.add_stable_swap_pool caller tokens decimals fee amp = .ok (c', id)) (t : TokenId) :
    totalOfToken c' t = totalOfToken c t ∧
    (c.pools.all Pool.feeOk = true → c'.pools.all Pool.feeOk = true) := by
  unfold Contract.add_stable_swap_pool at h
  split_ifs at h with hrole
  · simp only [bind, Except.bind] at h
    cases hck : checkTokenDuplicates tokens with
    | error e => rw [hck] at h; exact Except.noConfusion h
    | ok v =>
      rw [hck] at h
      cases hnew : StableSwapPool.new tokens decimals amp fee with
      | error e => rw [hnew] at h; exact Except.noConfusion h
      | ok p =>
        rw [hnew] at h
        unfold Contract.internal_add_pool at h
        dsimp only at h
        simp only [Except.ok.injEq, Prod.mk.injEq] at h
        obtain ⟨hc, hid⟩ := h
        subst hc
        obtain ⟨hpval, hfee⟩ := StableSwapPool_new_ok hnew
        constructor
        · unfold totalOfToken
          dsimp only
          rw [poolsTokenSum_append]
          rw [tokenAmount_share_register]
          have : (Pool.stable p).tokenAmount t = 0 := by
            subst hpval
            unfold Pool.tokenAmount
            exact entrySum_rawList_zeros tokens decimals t
          omega
        · intro hall
          dsimp only
          refine all_append_singleton hall ?_
          show Pool.feeOk (Pool.share_register (Pool.stable p) EXCHANGE_ID) = true
          simp only [Pool.share_register, Pool.feeOk,
            StableSwapPool_share_register_total_fee, decide_eq_true_eq]
          subst hpval
          exact Nat.le_of_lt hfee

theorem ledger_withdraw_pools {c : Contract} {user : AccountId} {t0 : TokenId} {a : Nat}
    {c' : Contract} (h : c.ledger_withdraw user t0 a = .ok c') : c'.pools = c.pools := by
  unfold Contract.ledger_withdraw Contract.internal_unwrap_account at h
  cases hacc : alookup c.accounts user with
  | none => rw [hacc] at h; exact Except.noConfusion h
  | some acct =>
    rw [hacc] at h
    simp only [bind, Except.bind] at h
    cases hw : acct.withdraw t0 a with
    | error e => rw [hw] at h; exact Except.noConfusion h
    | ok acct2 =>
      rw [hw] at h
      have hx := Except.ok.inj h
      subst hx
      rfl

theorem add_simple_pool_inv {c : Contract} {caller : AccountId} {tokens : List TokenId}
    {fee : Nat} {c' : Contract} {id : Nat}
    (h : c.add_simple_pool caller tokens fee = .ok (c', id)) :
    (c.pools.all Pool.feeOk = true → c'.pools.all Pool.feeOk = true) ∧
    (c.pools.all Pool.isSimple = true → c'.pools.all Pool.isSimple = true) := by
  unfold Contract.add_simple_pool at h
  cases har : c.assert_contract_running with
  | error e => rw [har] at h; exact Except.noConfusion h
  | ok u =>
    rw [har] at h
    simp only [bind, Except.bind] at h
    cases hck : checkTokenDuplicates tokens with
    | error e => rw [hck] at h; exact Except.noConfusion h
    | ok v =>
      rw [hck] at h
      cases hnew : SimplePool.new tokens fee with
      | error e => rw [hnew] at h; exact Except.noConfusion h
      | ok p =>
        rw [hnew] at h
        unfold Contract.internal_add_pool at h
        dsimp only at h
        simp only [Except.ok.injEq, Prod.mk.injEq] at h
        obtain ⟨hc, hid⟩ := h
        subst hc
        dsimp only
        constructor
        · intro hall
          exact all_append_singleton hall rfl
        · intro hall
          exact all_append_singleton hall rfl



theorem withdraw_fold2 {acc : Account} {t0 c0 t1 c1 : Nat} {acc' : Account}
    (h : List.foldlM (fun (a : Account) (ta : TokenId × Nat) => a.withdraw ta.1 ta.2) acc
        [(t0, c0), (t1, c1)] = .ok acc') (t : TokenId) :
    entrySum acc'.tokens t + (if t0 = t then c0 else 0) + (if t1 = t then c1 else 0) =
      entrySum acc.tokens t := by
  simp only [List.foldlM, bind, Except.bind] at h
  cases hw0 : acc.withdraw t0 c0 with
  | error e => rw [hw0] at h; exact Except.noConfusion h
  | ok acc1 =>
    rw [hw0] at h
    dsimp only at h
    cases hw1 : acc1.withdraw t1 c1 with
    | error e => rw [hw1] at h; exact Except.noConfusion h
    | ok acc2 =>
      rw [hw1] at h
      simp only [pure, Except.pure, Except.ok.injEq] at h
      subst h
      have h0 := Account_withdraw_entrySum hw0 t
      have h1 := Account_withdraw_entrySum hw1 t
      omega

theorem internal_add_liquidity_total {c : Contract} {att pid : Nat} {amounts : List Nat}
    {sender : AccountId} {mins : Option (List Nat)} {c' : Contract}
    (h : c.internal_add_liquidity_unchecked att pid amounts sender mins = .ok c')
    (t : TokenId) :
    totalOfToken c' t = totalOfToken c t ∧
    (c.pools.all Pool.feeOk = true → c'.pools.all Pool.feeOk = true) ∧
    (c.pools.all Pool.isSimple = true → c'.pools.all Pool.isSimple = true) := by
  unfold Contract.internal_add_liquidity_unchecked at h
  split_ifs at h with hatt
  cases hp : c.pools[pid]? with
  | none => rw [hp] at h; exact Except.noConfusion h
  | some pool =>
    rw [hp] at h
    dsimp only at h
    cases pool with
    | stable sp =>
      simp only [Pool.add_liquidity, bind, Except.bind] at h
      cases hsadd : sp.add_stable_liquidity sender amounts 0 with
      | error e => rw [hsadd] at h; simp only [Except.map] at h; exact Except.noConfusion h
      | ok pr =>
        rw [hsadd] at h
        obtain ⟨sp2, minted⟩ := pr
        simp only [Except.map] at h
        obtain ⟨hfe, had, hsum⟩ := StableSwapPool_add_conserve hsadd
        cases hf : List.foldlM
            (fun (a : Account) (ta : TokenId × Nat) => a.withdraw ta.1 ta.2)
            (c.internal_unwrap_or_default_account sender)
            ((Pool.stable sp).tokens.zip amounts) with
        | error e =>
          rw [hf] at h
          cases mins with
          | none => exact Except.noConfusion h
          | some ms =>
            dsimp only at h
            split_ifs at h with hmok
        | ok acct2 =>
          rw [hf] at h
          have hfold := withdraw_foldl hf t
          unfold Contract.internal_unwrap_or_default_account at hfold
          have hset := poolsTokenSum_set hp (Pool.stable sp2) t
          have hpool2 : (Pool.stable sp2).tokenAmount t =
              (Pool.stable sp).tokenAmount t +
                entrySum (sp.token_account_ids.zip amounts) t := by
            simp only [Pool.tokenAmount]
            exact hsum t
          simp only [Pool.tokens] at hfold
          have hst := accountsTokenSum_astore c.accounts sender acct2 t
          have hinv1 : c.pools.all Pool.feeOk = true →
              (c.pools.set pid (Pool.stable sp2)).all Pool.feeOk = true := by
            intro hall
            have hthis := all_of_getElem? hall hp
            refine all_set_of_all hall ?_
            simp only [Pool.feeOk] at hthis ⊢
            rw [hfe]
            exact hthis
          have hinv2 : c.pools.all Pool.isSimple = true →
              (c.pools.set pid (Pool.stable sp2)).all Pool.isSimple = true := by
            intro hall
            have := all_of_getElem? hall hp
            simp [Pool.isSimple] at this
          cases mins with
          | none =>
            dsimp only at h
            have hx := Except.ok.inj h
            subst hx
            unfold totalOfToken Contract.internal_save_account
            dsimp only
            exact ⟨by omega, hinv1, hinv2⟩
          | some ms =>
            dsimp only at h
            split_ifs at h with hmok
            all_goals
              have hx := Except.ok.inj h
            all_goals
              subst hx
              unfold totalOfToken Contract.internal_save_account
              dsimp only
              exact ⟨by omega, hinv1, hinv2⟩
    | simple p =>
      match amounts with
      | [] => exact Except.noConfusion h
      | [a0] => exact Except.noConfusion h
      | a0 :: a1 :: a2 :: tl => exact Except.noConfusion h
      | [a0, a1] =>
        simp only [Pool.add_liquidity, bind, Except.bind] at h
        cases hsadd : p.add_liquidity sender a0 a1 with
        | error e => rw [hsadd] at h; exact Except.noConfusion h
        | ok quad =>
          rw [hsadd] at h
          obtain ⟨p2, c0, c1, m0⟩ := quad
          simp only [Except.map] at h
          obtain ⟨ht0, ht1, ha0, ha1⟩ := SimplePool_add_liquidity_ok hsadd
          cases hf : List.foldlM
              (fun (a : Account) (ta : TokenId × Nat) => a.withdraw ta.1 ta.2)
              (c.internal_unwrap_or_default_account sender)
              ((Pool.simple p).tokens.zip [c0, c1]) with
          | error e =>
            rw [hf] at h
            cases mins with
            | none => exact Except.noConfusion h
            | some ms =>
              dsimp only at h
              split_ifs at h with hmok
          | ok acct2 =>
            rw [hf] at h
            have hfold := withdraw_fold2 hf t
            unfold Contract.internal_unwrap_or_default_account at hfold
            have hset := poolsTokenSum_set hp (Pool.simple p2) t
            have hpool2 : (Pool.simple p2).tokenAmount t =
                (Pool.simple p).tokenAmount t + (if p.token0 = t then c0 else 0) +
                  (if p.token1 = t then c1 else 0) := by
              simp only [Pool.tokenAmount]
              rw [ht0, ht1, ha0, ha1]
              split_ifs <;> omega
            have hst := accountsTokenSum_astore c.accounts sender acct2 t
            have hinv1 : c.pools.all Pool.feeOk = true →
                (c.pools.set pid (Pool.simple p2)).all Pool.feeOk = true :=
              fun hall => all_set_of_all hall rfl
            have hinv2 : c.pools.all Pool.isSimple = true →
                (c.pools.set pid (Pool.simple p2)).all Pool.isSimple = true :=
              fun hall => all_set_of_all hall rfl
            cases mins with
            | none =>
              dsimp only at h
              have hx := Except.ok.inj h
              subst hx
              unfold totalOfToken Contract.internal_save_account
              dsimp only
              exact ⟨by omega, hinv1, hinv2⟩
            | some ms =>
              dsimp only at h
              split_ifs at h with hmok
              all_goals
                have hx := Except.ok.inj h
              all_goals
                subst hx
                unfold totalOfToken Contract.internal_save_account
                dsimp only
                exact ⟨by omega, hinv1, hinv2⟩

theorem internal_add_stable_liquidity_total {c : Contract} {att pid : Nat}
    {amounts : List Nat} {minS : Nat} {sender : AccountId} {c' : Contract}
    (h : c.internal_add_stable_liquidity_unchecked att pid amounts minS sender = .ok c')
    (t : TokenId) :
    totalOfToken c' t = totalOfToken c t ∧
    (c.pools.all Pool.feeOk = true → c'.pools.all Pool.feeOk = true) ∧
    (c.pools.all Pool.isSimple = true → False) := by
  unfold Contract.internal_add_stable_liquidity_unchecked at h
  split_ifs at h with hatt
  cases hp : c.pools[pid]? with
  | none => rw [hp] at h; exact Except.noConfusion h
  | some pool =>
    rw [hp] at h
    dsimp only at h
    cases pool with
    | simple p =>
      simp only [Pool.add_stable_liquidity, bind, Except.bind] at h
      exact Except.noConfusion h
    | stable sp =>
      simp only [Pool.add_stable_liquidity, bind, Except.bind] at h
      cases hsadd : sp.add_stable_liquidity sender amounts minS with
      | error e => rw [hsadd] at h; simp only [Except.map] at h; exact Except.noConfusion h
      | ok pr =>
        rw [hsadd] at h
        obtain ⟨sp2, minted⟩ := pr
        simp only [Except.map] at h
        obtain ⟨hfe, had, hsum⟩ := StableSwapPool_add_conserve hsadd
        cases hf : List.foldlM
            (fun (a : Account) (ta : TokenId × Nat) => a.withdraw ta.1 ta.2)
            (c.internal_unwrap_or_default_account sender)
            ((Pool.stable sp).tokens.zip amounts) with
        | error e => rw [hf] at h; exact Except.noConfusion h
        | ok acct2 =>
          rw [hf] at h
          dsimp only at h
          have hx := Except.ok.inj h
          subst hx
          have hfold := withdraw_foldl hf t
          unfold Contract.internal_unwrap_or_default_account at hfold
          have hset := poolsTokenSum_set hp (Pool.stable sp2) t
          have hpool2 : (Pool.stable sp2).tokenAmount t =
              (Pool.stable sp).tokenAmount t +
                entrySum (sp.token_account_ids.zip amounts) t := by
            simp only [Pool.tokenAmount]
            exact hsum t
          simp only [Pool.tokens] at hfold
          have hst := accountsTokenSum_astore c.accounts sender acct2 t
          refine ⟨?_, ?_, ?_⟩
          · unfold totalOfToken Contract.internal_save_account
            dsimp only
            omega
          · intro hall
            have hthis := all_of_getElem? hall hp
            unfold Contract.internal_save_account
            dsimp only
            refine all_set_of_all hall ?_
            simp only [Pool.feeOk] at hthis ⊢
            rw [hfe]
            exact hthis
          · intro hall
            have hthis := all_of_getElem? hall hp
            simp [Pool.isSimple] at hthis


theorem remove_liquidity_total {c : Contract} {att pid shares : Nat} {mins : List Nat}
    {caller : AccountId} {c' : Contract}
    (h : c.remove_liquidity att pid shares mins caller = .ok c') (t : TokenId) :
    totalOfToken c' t ≤ totalOfToken c t ∧
    (c.pools.all Pool.feeOk = true → c'.pools.all Pool.feeOk = true) ∧
    (c.pools.all Pool.isSimple = true →
      totalOfToken c' t = totalOfToken c t ∧ c'.pools.all Pool.isSimple = true) := by
  unfold Contract.remove_liquidity at h
  split_ifs at h with hatt
  cases har : c.assert_contract_running with
  | error e => rw [har] at h; exact Except.noConfusion h
  | ok u =>
    rw [har] at h
    simp only [bind, Except.bind] at h
    cases hp : c.pools[pid]? with
    | none => rw [hp] at h; exact Except.noConfusion h
    | some pool =>
      rw [hp] at h
      dsimp only at h
      cases pool with
      | stable sp =>
        simp only [Pool.remove_liquidity, bind, Except.bind] at h
        cases hsrem : sp.remove_liquidity caller shares mins with
        | error e => rw [hsrem] at h; simp only [Except.map] at h; exact Except.noConfusion h
        | ok pr =>
          rw [hsrem] at h
          obtain ⟨sp2, amts⟩ := pr
          simp only [Except.map] at h
          obtain ⟨hfe, had, htoks, hsum⟩ := StableSwapPool_remove_conserve hsrem
          have hx := Except.ok.inj h
          subst hx
          unfold totalOfToken Contract.internal_save_account
            Contract.internal_unwrap_or_default_account
          dsimp only
          simp only [Pool.tokens, htoks]
          have hset := poolsTokenSum_set hp (Pool.stable sp2) t
          have hdep := deposit_foldl (sp.token_account_ids.zip amts)
            ((alookup c.accounts caller).getD Account.empty) t
          have hpool2 : (Pool.stable sp2).tokenAmount t +
              entrySum (sp.token_account_ids.zip amts) t ≤
              (Pool.stable sp).tokenAmount t := by
            simp only [Pool.tokenAmount]
            exact hsum t
          have hst := accountsTokenSum_astore c.accounts caller
            ((sp.token_account_ids.zip amts).foldl
              (fun (a : Account) (ta : TokenId × Nat) => a.deposit ta.1 ta.2)
              ((alookup c.accounts caller).getD Account.empty)) t
          refine ⟨by omega, ?_, ?_⟩
          · intro hall
            have hthis := all_of_getElem? hall hp
            refine all_set_of_all hall ?_
            simp only [Pool.feeOk] at hthis ⊢
            rw [hfe]
            exact hthis
          · intro hall
            have hthis := all_of_getElem? hall hp
            simp [Pool.isSimple] at hthis
      | simple p =>
        match mins with
        | [] => exact Except.noConfusion h
        | [m0] => exact Except.noConfusion h
        | m0 :: m1 :: m2 :: tl => exact Except.noConfusion h
        | [m0, m1] =>
          simp only [Pool.remove_liquidity, bind, Except.bind] at h
          cases hsrem : p.remove_liquidity caller shares m0 m1 with
          | error e => rw [hsrem] at h; exact Except.noConfusion h
          | ok trip =>
            rw [hsrem] at h
            obtain ⟨p2, a0v, a1v⟩ := trip
            simp only [Except.map] at h
            obtain ⟨ht0, ht1, hle0, hle1, hs0, hs1⟩ := SimplePool_remove_liquidity_ok hsrem
            dsimp only [Pool.tokens] at h
            have hx := Except.ok.inj h
            subst hx
            unfold totalOfToken Contract.internal_save_account
              Contract.internal_unwrap_or_default_account
            dsimp only
            simp only [List.zip, List.zipWith, List.foldl]
            rw [ht0, ht1]
            have hset := poolsTokenSum_set hp (Pool.simple p2) t
            have hpool2 : (Pool.simple p2).tokenAmount t + (if p.token0 = t then a0v else 0) +
                (if p.token1 = t then a1v else 0) = (Pool.simple p).tokenAmount t := by
              simp only [Pool.tokenAmount]
              rw [ht0, ht1, hs0, hs1]
              split_ifs <;> omega
            set dep0 := (alookup c.accounts caller).getD Account.empty with hdep0
            have hd0 := Account_deposit_entrySum dep0 p.token0 a0v t
            have hd1 := Account_deposit_entrySum (dep0.deposit p.token0 a0v) p.token1 a1v t
            have hst := accountsTokenSum_astore c.accounts caller
              ((dep0.deposit p.token0 a0v).deposit p.token1 a1v) t
            rw [← hdep0] at hst
            refine ⟨by omega, ?_, ?_⟩
            · intro hall
              exact all_set_of_all hall rfl
            · intro hall
              exact ⟨by omega, all_set_of_all hall rfl⟩



theorem add_liquidity_total {c : Contract} {att pid : Nat} {amounts : List Nat}
    {mins : Option (List Nat)} {caller : AccountId} {c' : Contract}
    (h : c.add_liquidity att pid amounts mins caller = .ok c') (t : TokenId) :
    totalOfToken c' t = totalOfToken c t ∧
    (c.pools.all Pool.feeOk = true → c'.pools.all Pool.feeOk = true) ∧
    (c.pools.all Pool.isSimple = true → c'.pools.all Pool.isSimple = true) := by
  unfold Contract.add_liquidity at h
  cases har : c.assert_contract_running with
  | error e => rw [har] at h; exact Except.noConfusion h
  | ok u =>
    rw [har] at h
    simp only [bind, Except.bind] at h
    exact internal_add_liquidity_total h t

theorem add_stable_liquidity_total {c : Contract} {att pid : Nat} {amounts : List Nat}
    {minS : Nat} {caller : AccountId} {c' : Contract}
    (h : c.add_stable_liquidity att pid amounts minS caller = .ok c') (t : TokenId) :
    totalOfToken c' t = totalOfToken c t ∧
    (c.pools.all Pool.feeOk = true → c'.pools.all Pool.feeOk = true) ∧
    (c.pools.all Pool.isSimple = true → False) := by
  unfold Contract.add_stable_liquidity at h
  cases har : c.assert_contract_running with
  | error e => rw [har] at h; exact Except.noConfusion h
  | ok u =>
    rw [har] at h
    simp only [bind, Except.bind] at h
    exact internal_add_stable_liquidity_total h t

/-- Every successful operation moves token `t` across the custody boundary
only through the ledger deposit/withdraw calls; every failed operation
leaves the state unchanged.  The custody total never grows beyond the
deposits (the fee domain of every pool is maintained), and it is exactly
conserved while no stable pool is in play. -/
theorem stepOp_total (c : Contract) (op : Op) (t : TokenId)
    (hfee : c.pools.all Pool.feeOk = true) :
    totalOfToken (stepOp c op) t + opWithdrawn c op t ≤
      totalOfToken c t + opDeposited c op t ∧
    (stepOp c op).pools.all Pool.feeOk = true ∧
    (c.pools.all Pool.isSimple = true → op.addsStablePool = false →
      totalOfToken (stepOp c op) t + opWithdrawn c op t =
        totalOfToken c t + opDeposited c op t ∧
      (stepOp c op).pools.all Pool.isSimple = true) := by
  cases op with
  | registerAccount user ts =>
    simp only [stepOp, applyOp, opDeposited, opWithdrawn]
    rw [register_account_total]
    exact ⟨Nat.le_refl _, hfee, fun hsimp _ => ⟨by trivial, hsimp⟩⟩
  | ledgerDeposit user t0 a =>
    simp only [stepOp, applyOp, opDeposited, opWithdrawn]
    rw [ledger_deposit_total]
    exact ⟨by omega, hfee, fun hsimp _ => ⟨by omega, hsimp⟩⟩
  | ledgerWithdraw user t0 a =>
    simp only [stepOp, applyOp, opDeposited, opWithdrawn]
    cases hw : c.ledger_withdraw user t0 a with
    | error e =>
      simp only
      exact ⟨Nat.le_refl _, hfee, fun hsimp _ => ⟨by trivial, hsimp⟩⟩
    | ok c2 =>
      simp only
      have htot := ledger_withdraw_total hw t
      have hpools := ledger_withdraw_pools hw
      rw [hpools]
      exact ⟨by omega, hfee, fun hsimp _ => ⟨by omega, hsimp⟩⟩
  | addSimplePool caller ts fee =>
    simp only [stepOp, applyOp, opDeposited, opWithdrawn]
    cases hc : c.add_simple_pool caller ts fee with
    | error e =>
      simp only [Except.map]
      exact ⟨Nat.le_refl _, hfee, fun hsimp _ => ⟨by trivial, hsimp⟩⟩
    | ok r =>
      obtain ⟨c2, rid⟩ := r
      simp only [Except.map]
      have htot := add_simple_pool_total hc t
      obtain ⟨hi1, hi2⟩ := add_simple_pool_inv hc
      exact ⟨by omega, hi1 hfee, fun hsimp _ => ⟨by omega, hi2 hsimp⟩⟩
  | addStablePool caller ts decs fee amp =>
    simp only [stepOp, applyOp, opDeposited, opWithdrawn]
    cases hc : c.add_stable_swap_pool caller ts decs fee amp with
    | error e =>
      simp only [Except.map]
      exact ⟨Nat.le_refl _, hfee, fun hsimp _ => ⟨by trivial, hsimp⟩⟩
    | ok r =>
      obtain ⟨c2, rid⟩ := r
      simp only [Except.map]
      obtain ⟨htot, hi1⟩ := add_stable_swap_pool_total hc t
      exact ⟨by omega, hi1 hfee, fun _ hop => Bool.noConfusion hop⟩
  | addLiquidity caller att pid amounts mins =>
    simp only [stepOp, applyOp, opDeposited, opWithdrawn]
    cases hc : c.add_liquidity att pid amounts mins caller with
    | error e =>
      simp only
      exact ⟨Nat.le_refl _, hfee, fun hsimp _ => ⟨by trivial, hsimp⟩⟩
    | ok c2 =>
      simp only
      obtain ⟨htot, hi1, hi2⟩ := add_liquidity_total hc t
      exact ⟨by omega, hi1 hfee, fun hsimp _ => ⟨by omega, hi2 hsimp⟩⟩
  | addStableLiquidity caller att pid amounts minS =>
    simp only [stepOp, applyOp, opDeposited, opWithdrawn]
    cases hc : c.add_stable_liquidity att pid amounts minS caller with
    | error e =>
      simp only
      exact ⟨Nat.le_refl _, hfee, fun hsimp _ => ⟨by trivial, hsimp⟩⟩
    | ok c2 =>
      simp only
      obtain ⟨htot, hi1, hi2⟩ := add_stable_liquidity_total hc t
      exact ⟨by omega, hi1 hfee, fun hsimp _ => absurd hsimp (fun hs => hi2 hs)⟩
  | removeLiquidity caller att pid shares mins =>
    simp only [stepOp, applyOp, opDeposited, opWithdrawn]
    cases hc : c.remove_liquidity att pid shares mins caller with
    | error e =>
      simp only
      exact ⟨Nat.le_refl _, hfee, fun hsimp _ => ⟨by trivial, hsimp⟩⟩
    | ok c2 =>
      simp only
      obtain ⟨hle, hi1, hex⟩ := remove_liquidity_total hc t
      refine ⟨by omega, hi1 hfee, fun hsimp _ => ?_⟩
      obtain ⟨heq, hsimp'⟩ := hex hsimp
      exact ⟨by omega, hsimp'⟩
  | executeActions caller att actions =>
    simp only [stepOp, applyOp, opDeposited, opWithdrawn]
    cases hc : c.execute_actions att actions caller with
    | error e =>
      simp only [Except.map]
      exact ⟨Nat.le_refl _, hfee, fun hsimp _ => ⟨by trivial, hsimp⟩⟩
    | ok r =>
      obtain ⟨c2, res2⟩ := r
      simp only [Except.map]
      obtain ⟨hle, hfee', hex⟩ := execute_actions_conserve hfee hc t
      refine ⟨by omega, hfee', fun hsimp _ => ?_⟩
      obtain ⟨heq, hsimp'⟩ := hex hsimp
      exact ⟨by omega, hsimp'⟩

/-- Ledger conservation over any run: the final custody total of a token
plus everything withdrawn never exceeds the initial total plus everything
deposited; over stable-free runs it is exactly equal. -/
theorem runLedger_total (t : TokenId) (ops : List Op) (c : Contract)
    (hfee : c.pools.all Pool.feeOk = true) :
    totalOfToken (runLedger t c ops).1 t + (runLedger t c ops).2.2 ≤
      totalOfToken c t + (runLedger t c ops).2.1 ∧
    (runLedger t c ops).1.pools.all Pool.feeOk = true ∧
    (c.pools.all Pool.isSimple = true →
      (ops.all fun op => !op.addsStablePool) = true →
      totalOfToken (runLedger t c ops).1 t + (runLedger t c ops).2.2 =
        totalOfToken c t + (runLedger t c ops).2.1 ∧
      (runLedger t c ops).1.pools.all Pool.isSimple = true) := by
  induction ops generalizing c with
  | nil =>
    simp only [runLedger]
    exact ⟨Nat.le_refl _, hfee, fun hsimp _ => ⟨by trivial, hsimp⟩⟩
  | cons op rest ih =>
    obtain ⟨hle1, hfee1, hex1⟩ := stepOp_total c op t hfee
    obtain ⟨hle2, hfee2, hex2⟩ := ih (stepOp c op) hfee1
    simp only [runLedger]
    refine ⟨by omega, hfee2, fun hsimp hall => ?_⟩
    simp only [List.all_cons, Bool.and_eq_true] at hall
    obtain ⟨hop, hrest⟩ := hall
    rw [Bool.not_eq_eq_eq_not, Bool.not_true] at hop
    obtain ⟨heq1, hsimp1⟩ := hex1 hsimp hop
    obtain ⟨heq2, hsimp2⟩ := hex2 hsimp1 hrest
    exact ⟨by omega, hsimp2⟩


/-! ## Executor refinement lemmas -/

theorem internal_execute_actions_eq_spec (c : Contract) (account : Account)
    (actions : List Action) (prev : ActionResult) :
    c.internal_execute_actions account actions prev = executorSpec c account actions prev := by
  induction actions generalizing c account prev with
  | nil => rfl
  | cons action rest ih =>
    obtain ⟨sa⟩ := action
    obtain ⟨pid, tin, ain?, tout, minOut⟩ := sa
    unfold Contract.internal_execute_actions Contract.internal_execute_action
      Contract.internal_pool_swap executorSpec
    dsimp only
    have hcont : ∀ (ain : Nat),
        (Except.bind (Except.bind (account.withdraw tin ain) fun acct2 =>
            Except.bind
              (match c.pools[pid]? with
                | Option.none => Except.error Err.unknownPool
                | some pool =>
                  Except.bind (pool.swap tin ain tout minOut) fun r =>
                    Except.ok ({ c with pools := c.pools.set pid r.1 }, r.2))
              fun r => Except.ok (r.1, acct2.deposit tout r.2, ActionResult.amount r.2))
          fun trip => trip.1.internal_execute_actions trip.2.1 rest trip.2.2) =
        (Except.bind (account.withdraw tin ain) fun acct2 =>
          match c.pools[pid]? with
          | Option.none => Except.error Err.unknownPool
          | some pool =>
            Except.bind (pool.swap tin ain tout minOut) fun r =>
              executorSpec { c with pools := c.pools.set pid r.1 }
                (acct2.deposit tout r.2) rest (ActionResult.amount r.2)) := by
      intro ain
      cases hw : account.withdraw tin ain with
      | error e => rfl
      | ok acct2 =>
        dsimp only [Except.bind]
        cases hp : c.pools[pid]? with
        | none => rfl
        | some pool =>
          dsimp only
          cases hs : pool.swap tin ain tout minOut with
          | error e => rfl
          | ok r =>
            dsimp only [Except.bind]
            exact ih _ _ _
    cases ain? with
    | some v =>
      dsimp only [bind, Except.bind]
      exact hcont v
    | none =>
      cases prev with
      | none => rfl
      | amount a =>
        dsimp only [ActionResult.to_amount, bind, Except.bind]
        exact hcont a


theorem internal_execute_actions_append (c : Contract) (account : Account)
    (actions : List Action) (act : Action) (prev : ActionResult) :
    c.internal_execute_actions account (actions ++ [act]) prev =
      Except.bind (c.internal_execute_actions account actions prev)
        (fun trip => trip.1.internal_execute_action trip.2.1 act trip.2.2) := by
  induction actions generalizing c account prev with
  | nil =>
    show c.internal_execute_actions account [act] prev = _
    unfold Contract.internal_execute_actions
    cases h : c.internal_execute_action account act prev with
    | error e => simp [bind, Except.bind, h]
    | ok trip =>
      simp only [bind, Except.bind, Except.bind]
      unfold Contract.internal_execute_actions
      rw [h]
  | cons a rest ih =>
    show c.internal_execute_actions account (a :: (rest ++ [act])) prev = _
    unfold Contract.internal_execute_actions
    cases h : c.internal_execute_action account a prev with
    | error e => simp [bind, Except.bind]
    | ok trip =>
      simp only [bind, Except.bind]
      exact ih trip.1 trip.2.1 trip.2.2


/-! ## Pool-registry shape lemmas -/

theorem internal_pool_swap_pools_len {c : Contract} {pid : Nat} {tin : TokenId} {ain : Nat}
    {tout : TokenId} {minOut : Nat} {c' : Contract} {out : Nat}
    (h : c.internal_pool_swap pid tin ain tout minOut = .ok (c', out)) :
    c'.pools.length = c.pools.length := by
  unfold Contract.internal_pool_swap at h
  cases hp : c.pools[pid]? with
  | none => rw [hp] at h; exact Except.noConfusion h
  | some pool =>
    rw [hp] at h
    dsimp only at h
    cases hs : pool.swap tin ain tout minOut with
    | error e => rw [hs] at h; exact Except.noConfusion h
    | ok r =>
      rw [hs] at h
      simp only [bind, Except.bind, Except.ok.injEq, Prod.mk.injEq] at h
      obtain ⟨hc, ho⟩ := h
      subst hc
      simp [List.length_set]

theorem internal_execute_action_pools_len {c : Contract} {acct : Account} {action : Action}
    {res : ActionResult} {c' : Contract} {acct' : Account} {res' : ActionResult}
    (h : c.internal_execute_action acct action res = .ok (c', acct', res')) :
    c'.pools.length = c.pools.length := by
  obtain ⟨sa⟩ := action
  obtain ⟨pid, tin, ain?, tout, minOut⟩ := sa
  unfold Contract.internal_execute_action at h
  dsimp only at h
  have hstep : ∀ (ain : Nat),
      (acct.withdraw tin ain >>= fun account =>
        (c.internal_pool_swap pid tin ain tout minOut) >>=
          fun r => Except.ok (r.1, account.deposit tout r.2, ActionResult.amount r.2))
        = .ok (c', acct', res') → c'.pools.length = c.pools.length := by
    intro ain hh
    cases hw : acct.withdraw tin ain with
    | error e => rw [hw] at hh; exact Except.noConfusion hh
    | ok acct2 =>
      rw [hw] at hh
      simp only [bind, Except.bind] at hh
      cases hs : c.internal_pool_swap pid tin ain tout minOut with
      | error e => rw [hs] at hh; exact Except.noConfusion hh
      | ok r =>
        rw [hs] at hh
        simp only [Except.ok.injEq, Prod.mk.injEq] at hh
        obtain ⟨hc, ha, hr⟩ := hh
        subst hc
        exact internal_pool_swap_pools_len hs
  cases ain? with
  | some v =>
    simp only [bind, Except.bind] at h
    exact hstep v h
  | none =>
    cases res with
    | none =>
      simp only [ActionResult.to_amount, bind, Except.bind] at h
      exact Except.noConfusion h
    | amount a =>
      simp only [ActionResult.to_amount, bind, Except.bind] at h
      exact hstep a h

theorem internal_execute_actions_pools_len {c : Contract} {acct : Account}
    {actions : List Action} {res : ActionResult} {c' : Contract} {acct' : Account}
    {res' : ActionResult}
    (h : c.internal_execute_actions acct actions res = .ok (c', acct', res')) :
    c'.pools.length = c.pools.length := by
  induction actions generalizing c acct res with
  | nil =>
    unfold Contract.internal_execute_actions at h
    simp only [Except.ok.injEq, Prod.mk.injEq] at h
    obtain ⟨hc, ha, hr⟩ := h
    subst hc
    rfl
  | cons action rest ih =>
    unfold Contract.internal_execute_actions at h
    cases h1 : c.internal_execute_action acct action res with
    | error e => rw [h1] at h; exact Except.noConfusion h
    | ok trip =>
      rw [h1] at h
      obtain ⟨c2, acct2, res2⟩ := trip
      simp only [bind, Except.bind] at h
      rw [ih h]
      exact internal_execute_action_pools_len h1

theorem execute_actions_pools_len {c : Contract} {att : Nat} {actions : List Action}
    {sender : AccountId} {c' : Contract} {r : ActionResult}
    (h : c.execute_actions att actions sender = .ok (c', r)) :
    c'.pools.length = c.pools.length := by
  unfold Contract.execute_actions at h
  cases har : c.assert_contract_running with
  | error e => rw [har] at h; exact Except.noConfusion h
  | ok u =>
    rw [har] at h
    simp only [bind, Except.bind] at h
    unfold Contract.internal_unwrap_account at h
    cases hacc : alookup c.accounts sender with
    | none => rw [hacc] at h; exact Except.noConfusion h
    | some acct =>
      rw [hacc] at h
      dsimp only at h
      split_ifs at h with hchk
      · cases hrun : c.internal_execute_actions acct actions ActionResult.none with
        | error e => rw [hrun] at h; exact Except.noConfusion h
        | ok trip =>
          rw [hrun] at h
          obtain ⟨c2, acct2, res2⟩ := trip
          simp only [bind, Except.bind, Except.ok.injEq, Prod.mk.injEq] at h
          obtain ⟨hc, hr⟩ := h
          subst hc
          unfold Contract.internal_save_account
          dsimp only
          exact internal_execute_actions_pools_len hrun

theorem internal_add_liquidity_pools_len {c : Contract} {att pid : Nat} {amounts : List Nat}
    {sender : AccountId} {mins : Option (List Nat)} {c' : Contract}
    (h : c.internal_add_liquidity_unchecked att pid amounts sender mins = .ok c') :
    c'.pools.length = c.pools.length := by
  unfold Contract.internal_add_liquidity_unchecked at h
  split_ifs at h with hatt
  cases hp : c.pools[pid]? with
  | none => rw [hp] at h; exact Except.noConfusion h
  | some pool =>
    rw [hp] at h
    dsimp only at h
    cases pool with
    | stable sp =>
      simp only [Pool.add_liquidity, bind, Except.bind] at h
      cases hsadd : sp.add_stable_liquidity sender amounts 0 with
      | error e => rw [hsadd] at h; simp only [Except.map] at h; exact Except.noConfusion h
      | ok pr =>
        rw [hsadd] at h
        obtain ⟨sp2, minted⟩ := pr
        simp only [Except.map] at h
        cases hf : List.foldlM
            (fun (a : Account) (ta : TokenId × Nat) => a.withdraw ta.1 ta.2)
            (c.internal_unwrap_or_default_account sender)
            ((Pool.stable sp).tokens.zip amounts) with
        | error e =>
          rw [hf] at h
          cases mins with
          | none => exact Except.noConfusion h
          | some ms =>
            dsimp only at h
            split_ifs at h with hmok
        | ok acct2 =>
          rw [hf] at h
          cases mins with
          | none =>
            dsimp only at h
            have hx := Except.ok.inj h
            subst hx
            simp [Contract.internal_save_account, List.length_set]
          | some ms =>
            dsimp only at h
            split_ifs at h with hmok
            all_goals
              have hx := Except.ok.inj h
            all_goals
              subst hx
              simp [Contract.internal_save_account, List.length_set]
    | simple p =>
      match amounts with
      | [] => exact Except.noConfusion h
      | [a0] => exact Except.noConfusion h
      | a0 :: a1 :: a2 :: tl => exact Except.noConfusion h
      | [a0, a1] =>
        simp only [Pool.add_liquidity, bind, Except.bind] at h
        cases hsadd : p.add_liquidity sender a0 a1 with
        | error e => rw [hsadd] at h; exact Except.noConfusion h
        | ok quad =>
          rw [hsadd] at h
          obtain ⟨p2, c0, c1, m0⟩ := quad
          simp only [Except.map] at h
          cases hf : List.foldlM
              (fun (a : Account) (ta : TokenId × Nat) => a.withdraw ta.1 ta.2)
              (c.internal_unwrap_or_default_account sender)
              ((Pool.simple p).tokens.zip [c0, c1]) with
          | error e =>
            rw [hf] at h
            cases mins with
            | none => exact Except.noConfusion h
            | some ms =>
              dsimp only at h
              split_ifs at h with hmok
          | ok acct2 =>
            rw [hf] at h
            cases mins with
            | none =>
              dsimp only at h
              have hx := Except.ok.inj h
              subst hx
              simp [Contract.internal_save_account, List.length_set]
            | some ms =>
              dsimp only at h
              split_ifs at h with hmok
              all_goals
                have hx := Except.ok.inj h
              all_goals
                subst hx
                simp [Contract.internal_save_account, List.length_set]

theorem remove_liquidity_pools_len {c : Contract} {att pid shares : Nat} {mins : List Nat}
    {caller : AccountId} {c' : Contract}
    (h : c.remove_liquidity att pid shares mins caller = .ok c') :
    c'.pools.length = c.pools.length := by
  unfold Contract.remove_liquidity at h
  split_ifs at h with hatt
  cases har : c.assert_contract_running with
  | error e => rw [har] at h; exact Except.noConfusion h
  | ok u =>
    rw [har] at h
    simp only [bind, Except.bind] at h
    cases hp : c.pools[pid]? with
    | none => rw [hp] at h; exact Except.noConfusion h
    | some pool =>
      rw [hp] at h
      dsimp only at h
      cases pool with
      | stable sp =>
        simp only [Pool.remove_liquidity, bind, Except.bind] at h
        cases hsrem : sp.remove_liquidity caller shares mins with
        | error e => rw [hsrem] at h; simp only [Except.map] at h; exact Except.noConfusion h
        | ok pr =>
          rw [hsrem] at h
          obtain ⟨sp2, amts⟩ := pr
          simp only [Except.map] at h
          have hx := Except.ok.inj h
          subst hx
          simp [Contract.internal_save_account, List.length_set]
      | simple p =>
        match mins with
        | [] => exact Except.noConfusion h
        | [m0] => exact Except.noConfusion h
        | m0 :: m1 :: m2 :: tl => exact Except.noConfusion h
        | [m0, m1] =>
          simp only [Pool.remove_liquidity, bind, Except.bind] at h
          cases hsrem : p.remove_liquidity caller shares m0 m1 with
          | error e => rw [hsrem] at h; exact Except.noConfusion h
          | ok trip =>
            rw [hsrem] at h
            obtain ⟨p2, a0v, a1v⟩ := trip
            simp only [Except.map] at h
            dsimp only [Pool.tokens] at h
            have hx := Except.ok.inj h
            subst hx
            simp [Contract.internal_save_account, List.length_set]

theorem internal_add_stable_liquidity_pools_len {c : Contract} {att pid : Nat}
    {amounts : List Nat} {minS : Nat} {sender : AccountId} {c' : Contract}
    (h : c.internal_add_stable_liquidity_unchecked att pid amounts minS sender = .ok c') :
    c'.pools.length = c.pools.length := by
  unfold Contract.internal_add_stable_liquidity_unchecked at h
  split_ifs at h with hatt
  cases hp : c.pools[pid]? with
  | none => rw [hp] at h; exact Except.noConfusion h
  | some pool =>
    rw [hp] at h
    dsimp only at h
    cases pool with
    | simple p =>
      simp only [Pool.add_stable_liquidity, bind, Except.bind] at h
      exact Except.noConfusion h
    | stable sp =>
      simp only [Pool.add_stable_liquidity, bind, Except.bind] at h
      cases hsadd : sp.add_stable_liquidity sender amounts minS with
      | error e => rw [hsadd] at h; simp only [Except.map] at h; exact Except.noConfusion h
      | ok pr =>
        rw [hsadd] at h
        obtain ⟨sp2, minted⟩ := pr
        simp only [Except.map] at h
        cases hf : List.foldlM
            (fun (a : Account) (ta : TokenId × Nat) => a.withdraw ta.1 ta.2)
            (c.internal_unwrap_or_default_account sender)
            ((Pool.stable sp).tokens.zip amounts) with
        | error e => rw [hf] at h; exact Except.noConfusion h
        | ok acct2 =>
          rw [hf] at h
          dsimp only at h
          have hx := Except.ok.inj h
          subst hx
          simp [Contract.internal_save_account, List.length_set]

theorem stepOp_pools_le (c : Contract) (op : Op) :
    c.pools.length ≤ (stepOp c op).pools.length := by
  cases op with
  | registerAccount user ts =>
    simp [stepOp, applyOp, Contract.register_account, Contract.internal_save_account]
  | ledgerDeposit user t0 a =>
    simp [stepOp, applyOp, Contract.ledger_deposit, Contract.internal_save_account]
  | ledgerWithdraw user t0 a =>
    simp only [stepOp, applyOp]
    cases hw : c.ledger_withdraw user t0 a with
    | error e => exact Nat.le_refl _
    | ok c2 =>
      unfold Contract.ledger_withdraw Contract.internal_unwrap_account at hw
      cases hacc : alookup c.accounts user with
      | none => rw [hacc] at hw; exact Except.noConfusion hw
      | some acct =>
        rw [hacc] at hw
        simp only [bind, Except.bind] at hw
        cases hw2 : acct.withdraw t0 a with
        | error e => rw [hw2] at hw; exact Except.noConfusion hw
        | ok acct2 =>
          rw [hw2] at hw
          simp only [Except.ok.injEq] at hw
          subst hw
          simp [Contract.internal_save_account]
  | addSimplePool caller ts fee =>
    simp only [stepOp, applyOp]
    cases hc : c.add_simple_pool caller ts fee with
    | error e => exact Nat.le_refl _
    | ok r =>
      simp only [Except.map]
      unfold Contract.add_simple_pool at hc
      cases har : c.assert_contract_running with
      | error e => rw [har] at hc; exact Except.noConfusion hc
      | ok u =>
        rw [har] at hc
        simp only [bind, Except.bind] at hc
        cases hck : checkTokenDuplicates ts with
        | error e => rw [hck] at hc; exact Except.noConfusion hc
        | ok v =>
          rw [hck] at hc
          cases hnew : SimplePool.new ts fee with
          | error e => rw [hnew] at hc; exact Except.noConfusion hc
          | ok p =>
            rw [hnew] at hc
            unfold Contract.internal_add_pool at hc
            dsimp only at hc
            have hx := Except.ok.inj hc
            rw [← hx]
            simp
  | addStablePool caller ts decs fee amp =>
    simp only [stepOp, applyOp]
    cases hc : c.add_stable_swap_pool caller ts decs fee amp with
    | error e => exact Nat.le_refl _
    | ok r =>
      simp only [Except.map]
      unfold Contract.add_stable_swap_pool at hc
      split_ifs at hc with hrole
      simp only [bind, Except.bind] at hc
      cases hck : checkTokenDuplicates ts with
      | error e => rw [hck] at hc; exact Except.noConfusion hc
      | ok v =>
        rw [hck] at hc
        cases hnew : StableSwapPool.new ts decs amp fee with
        | error e => rw [hnew] at hc; exact Except.noConfusion hc
        | ok p =>
          rw [hnew] at hc
          unfold Contract.internal_add_pool at hc
          dsimp only at hc
          have hx := Except.ok.inj hc
          rw [← hx]
          simp
  | addLiquidity caller att pid amounts mins =>
    simp only [stepOp, applyOp]
    cases hc : c.add_liquidity att pid amounts mins caller with
    | error e => exact Nat.le_refl _
    | ok c2 =>
      unfold Contract.add_liquidity at hc
      cases har : c.assert_contract_running with
      | error e => rw [har] at hc; exact Except.noConfusion hc
      | ok u =>
        rw [har] at hc
        simp only [bind, Except.bind] at hc
        exact Nat.le_of_eq (internal_add_liquidity_pools_len hc).symm
  | addStableLiquidity caller att pid amounts minS =>
    simp only [stepOp, applyOp]
    cases hc : c.add_stable_liquidity att pid amounts minS caller with
    | error e => exact Nat.le_refl _
    | ok c2 =>
      unfold Contract.add_stable_liquidity at hc
      cases har : c.assert_contract_running with
      | error e => rw [har] at hc; exact Except.noConfusion hc
      | ok u =>
        rw [har] at hc
        simp only [bind, Except.bind] at hc
        exact Nat.le_of_eq (internal_add_stable_liquidity_pools_len hc).symm
  | removeLiquidity caller att pid shares mins =>
    simp only [stepOp, applyOp]
    cases hc : c.remove_liquidity att pid shares mins caller with
    | error e => exact Nat.le_refl _
    | ok c2 => exact Nat.le_of_eq (remove_liquidity_pools_len hc).symm
  | executeActions caller att actions =>
    simp only [stepOp, applyOp]
    cases hc : c.execute_actions att actions caller with
    | error e => exact Nat.le_refl _
    | ok r =>
      obtain ⟨c2, res2⟩ := r
      exact Nat.le_of_eq (execute_actions_pools_len hc).symm

theorem run_pools_le (c : Contract) (ops : List Op) :
    c.pools.length ≤ (run c ops).pools.length := by
  induction ops generalizing c with
  | nil => exact Nat.le_refl _
  | cons op rest ih =>
    calc c.pools.length ≤ (stepOp c op).pools.length := stepOp_pools_le c op
      _ ≤ (run (stepOp c op) rest).pools.length := ih (stepOp c op)


/-! ## Entry-point behaviour lemmas -/

theorem SimplePool_swap_min {p : SimplePool} {tin : TokenId} {ain : Nat} {tout : TokenId}
    {minOut : Nat} {p' : SimplePool} {out : Nat}
    (h : p.swap tin ain tout minOut = .ok (p', out)) : minOut ≤ out := by
  unfold SimplePool.swap at h
  split_ifs at h with h1 h2 h3 h4 h5 h6 h7 h8 h9
  all_goals simp only [Except.ok.injEq, Prod.mk.injEq] at h
  all_goals obtain ⟨hp, ho⟩ := h
  all_goals subst ho
  · omega
  · omega

theorem internal_pool_swap_min {c : Contract} {pid : Nat} {tin : TokenId} {ain : Nat}
    {tout : TokenId} {minOut : Nat} {c' : Contract} {out : Nat}
    (h : c.internal_pool_swap pid tin ain tout minOut = .ok (c', out)) : minOut ≤ out := by
  unfold Contract.internal_pool_swap at h
  cases hp : c.pools[pid]? with
  | none => rw [hp] at h; exact Except.noConfusion h
  | some pool =>
    rw [hp] at h
    dsimp only at h
    cases pool with
    | stable sp =>
      simp only [Pool.swap, bind, Except.bind] at h
      cases hs : sp.swap tin ain tout minOut with
      | error e => rw [hs] at h; exact Except.noConfusion h
      | ok r =>
        rw [hs] at h
        simp only [Except.map, Except.ok.injEq, Prod.mk.injEq] at h
        obtain ⟨hc, ho⟩ := h
        subst ho
        exact StableSwapPool_swap_min (by rw [hs])
    | simple p =>
      simp only [Pool.swap, bind, Except.bind] at h
      cases hs : p.swap tin ain tout minOut with
      | error e => rw [hs] at h; exact Except.noConfusion h
      | ok r =>
        rw [hs] at h
        simp only [Except.map, Except.ok.injEq, Prod.mk.injEq] at h
        obtain ⟨hc, ho⟩ := h
        subst ho
        exact SimplePool_swap_min hs

theorem applyOp_error_rollback {c : Contract} {op : Op} {e : Err}
    (h : applyOp c op = .error e) : stepOp c op = c := by
  unfold stepOp
  rw [h]

theorem assert_running_of_state {c : Contract} (h : c.state = RunningState.running) :
    c.assert_contract_running = .ok () := by
  unfold Contract.assert_contract_running
  rw [h]

theorem assert_paused_of_state {c : Contract} (h : c.state = RunningState.pausedState) :
    c.assert_contract_running = .error .paused := by
  unfold Contract.assert_contract_running
  rw [h]

theorem SimplePool_new_not_two {tokens : List TokenId} {fee : Nat}
    (h : tokens.length ≠ 2) : SimplePool.new tokens fee = .error .wrongTokenCount := by
  match tokens with
  | [] => rfl
  | [a] => rfl
  | [a, b] => exact absurd rfl h
  | a :: b :: c :: tl => rfl

theorem paused_blocks_all {c : Contract} (h : c.state = RunningState.pausedState) :
    (∀ caller tokens fee, c.add_simple_pool caller tokens fee = .error .paused) ∧
    (∀ att actions sender, c.execute_actions att actions sender = .error .paused) ∧
    (∀ att actions caller, c.swapEntry att actions caller = .error .paused) ∧
    (∀ att pid amounts mins caller,
      c.add_liquidity att pid amounts mins caller = .error .paused) ∧
    (∀ pid shares mins caller, c.remove_liquidity 1 pid shares mins caller = .error .paused) := by
  have hrun := assert_paused_of_state h
  refine ⟨?_, ?_, ?_, ?_, ?_⟩
  · intro caller tokens fee
    unfold Contract.add_simple_pool
    rw [hrun]
    rfl
  · intro att actions sender
    unfold Contract.execute_actions
    rw [hrun]
    rfl
  · intro att actions caller
    unfold Contract.swapEntry
    rw [hrun]
    rfl
  · intro att pid amounts mins caller
    unfold Contract.add_liquidity
    rw [hrun]
    rfl
  · intro pid shares mins caller
    unfold Contract.remove_liquidity
    rw [hrun]
    rfl


theorem add_simple_pool_dup {c : Contract} {caller : AccountId} {tokens : List TokenId}
    {fee : Nat} (hrun : c.state = RunningState.running) (hdup : ¬tokens.Nodup) :
    c.add_simple_pool caller tokens fee = .error .tokenDuplicates := by
  unfold Contract.add_simple_pool
  rw [assert_running_of_state hrun]
  unfold checkTokenDuplicates
  rw [if_neg hdup]
  rfl

theorem add_simple_pool_wrong_count {c : Contract} {caller : AccountId}
    {tokens : List TokenId} {fee : Nat} (hrun : c.state = RunningState.running)
    (hnodup : tokens.Nodup) (hlen : tokens.length ≠ 2) :
    c.add_simple_pool caller tokens fee = .error .wrongTokenCount := by
  unfold Contract.add_simple_pool
  rw [assert_running_of_state hrun]
  unfold checkTokenDuplicates
  rw [if_pos hnodup]
  show Except.bind (Except.ok ()) _ = _
  simp only [Except.bind]
  rw [SimplePool_new_not_two hlen]
  rfl

theorem add_simple_pool_error_rollback {c : Contract} {caller : AccountId}
    {tokens : List TokenId} {fee : Nat} {e : Err}
    (h : c.add_simple_pool caller tokens fee = .error e) :
    stepOp c (Op.addSimplePool caller tokens fee) = c := by
  unfold stepOp applyOp
  dsimp only
  rw [h]
  rfl

theorem add_stable_swap_pool_not_allowed {c : Contract} {caller : AccountId}
    {tokens : List TokenId} {decimals : List Nat} {fee amp : Nat}
    (h : c.is_owner_or_guardians caller = false) :
    c.add_stable_swap_pool caller tokens decimals fee amp = .error .notAllowed := by
  unfold Contract.add_stable_swap_pool
  simp [h]

theorem execute_actions_deposit_needed {c : Contract} {actions : List Action}
    {sender : AccountId} {account : Account}
    (hrun : c.state = RunningState.running)
    (hacc : alookup c.accounts sender = some account)
    (hchk : c.depositCheckOk account actions = false) :
    c.execute_actions 0 actions sender = .error .depositNeeded := by
  unfold Contract.execute_actions
  rw [assert_running_of_state hrun]
  show Except.bind (Except.ok ()) _ = _
  simp only [Except.bind]
  unfold Contract.internal_unwrap_account
  rw [hacc]
  show Except.bind (Except.ok account) _ = _
  simp only [Except.bind]
  rw [if_pos ⟨by trivial, by simp [hchk]⟩]

theorem execute_actions_skip_check {c : Contract} {att : Nat} {actions : List Action}
    {sender : AccountId} (h : att ≠ 0) :
    c.execute_actions att actions sender = c.execute_actions_unchecked actions sender := by
  unfold Contract.execute_actions Contract.execute_actions_unchecked
  cases har : c.assert_contract_running with
  | error e => rfl
  | ok u =>
    simp only [bind, Except.bind]
    unfold Contract.internal_unwrap_account
    cases hacc : alookup c.accounts sender with
    | none => rfl
    | some account =>
      simp only [bind, Except.bind]
      rw [if_neg]
      intro hcon
      exact h hcon.1

theorem execute_actions_error_rollback {c : Contract} {att : Nat} {actions : List Action}
    {sender : AccountId} {e : Err}
    (h : c.execute_actions att actions sender = .error e) :
    stepOp c (Op.executeActions sender att actions) = c := by
  unfold stepOp applyOp
  dsimp only
  rw [h]
  rfl


/-! ## Claim theorems -/

theorem depositCheckOk_eq_false {c : Contract} {account : Account} {actions : List Action}
    {action : Action} (hact : action ∈ actions) {tk : TokenId} (htk : tk ∈ action.tokens)
    (hbal : account.get_balance tk = Option.none)
    (hwl : c.whitelisted_tokens.contains tk = false) :
    c.depositCheckOk account actions = false := by
  unfold Contract.depositCheckOk
  rw [List.all_eq_false]
  refine ⟨action, hact, ?_⟩
  rw [Bool.not_eq_true, List.all_eq_false]
  refine ⟨tk, htk, ?_⟩
  rw [Bool.not_eq_true]
  simp only [hbal, Option.isSome_none, Bool.false_or]
  exact hwl

/-- C1: for every sequence of swap actions run through
`internal_execute_actions`, each action resolves its input to the explicit
`amount_in` when present and otherwise to the previous action's output
(failing `NoAmount` when the first action has none), withdraws it from the
caller's ledger account, swaps via the pool, deposits the output back and
carries it forward — i.e. the source loop coincides with the §4.5 executor
written step by step — and the returned result is the last action's result
(appending an action post-composes exactly its execution). -/
theorem C1_executor_follows_spec :
    (∀ (c : Contract) (account : Account) (actions : List Action) (prev : ActionResult),
      c.internal_execute_actions account actions prev = executorSpec c account actions prev) ∧
    (∀ (c : Contract) (account : Account) (actions : List Action) (act : Action)
        (prev : ActionResult),
      c.internal_execute_actions account (actions ++ [act]) prev =
        Except.bind (c.internal_execute_actions account actions prev)
          (fun trip => trip.1.internal_execute_action trip.2.1 act trip.2.2)) :=
  ⟨internal_execute_actions_eq_spec, internal_execute_actions_append⟩

/-- C2 counterexample: on a paused contract the owner's
`add_stable_swap_pool` does NOT fail with the paused error — it succeeds
and appends a pool (the entry point never calls
`assert_contract_running`). -/
theorem C2_counterexample :
    (pausedContract.add_stable_swap_pool 0 [1, 2] [6, 6] 25 100).isOk = true ∧
    (match pausedContract.add_stable_swap_pool 0 [1, 2] [6, 6] 25 100 with
      | .ok (c', id) => c'.pools.length = 1 ∧ id = 0
      | .error _ => False) :=
  ⟨rfl, rfl, rfl⟩

/-- C2 (amended): when the registry state is `Paused`, the mutating entry
points `add_simple_pool`, `execute_actions`, `swap`, `add_liquidity` and
`remove_liquidity` all fail with the `Paused` error, and any failing call
leaves the state unchanged; `add_stable_swap_pool` is the exception — it
is guarded only by the owner/guardian check. -/
theorem C2_paused_rejects_mutations (c : Contract)
    (h : c.state = RunningState.pausedState) :
    (∀ caller tokens fee, c.add_simple_pool caller tokens fee = .error .paused) ∧
    (∀ att actions sender, c.execute_actions att actions sender = .error .paused) ∧
    (∀ att actions caller, c.swapEntry att actions caller = .error .paused) ∧
    (∀ att pid amounts mins caller,
      c.add_liquidity att pid amounts mins caller = .error .paused) ∧
    (∀ pid shares mins caller,
      c.remove_liquidity 1 pid shares mins caller = .error .paused) ∧
    (∀ op e, applyOp c op = .error e → stepOp c op = c) := by
  obtain ⟨h1, h2, h3, h4, h5⟩ := paused_blocks_all h
  exact ⟨h1, h2, h3, h4, h5, fun op e he => applyOp_error_rollback he⟩

/-- C2 witness: the paused base contract rejects a simple-pool creation
and a liquidity removal with the `Paused` error. -/
theorem C2_witness :
    pausedContract.add_simple_pool 3 [1, 2] 25 = .error .paused ∧
    pausedContract.remove_liquidity 1 0 5 [1, 1] 3 = .error .paused :=
  ⟨(C2_paused_rejects_mutations pausedContract rfl).1 3 [1, 2] 25,
    (C2_paused_rejects_mutations pausedContract rfl).2.2.2.2.1 0 5 [1, 1] 3⟩

/-- C3: every successful swap routed through `internal_pool_swap` returns
at least the action's `min_amount_out`; a failing call rolls back, leaving
pool and ledger state unchanged. -/
theorem C3_slippage_enforced :
    (∀ (c : Contract) (pid : Nat) (tin : TokenId) (ain : Nat) (tout : TokenId)
        (minOut : Nat) (c' : Contract) (out : Nat),
      c.internal_pool_swap pid tin ain tout minOut = .ok (c', out) → minOut ≤ out) ∧
    (∀ (c : Contract) (op : Op) (e : Err), applyOp c op = .error e → stepOp c op = c) :=
  ⟨fun _ _ _ _ _ _ _ _ h => internal_pool_swap_min h,
    fun _ _ _ h => applyOp_error_rollback h⟩

/-- C3 witness: on the simple 100:100 pool, swapping 50 with
`min_amount_out = 1` succeeds with output 33 ≥ 1; on the stable
`10^6:10^6` pool, swapping `10^5` with `min_amount_out = 90000` succeeds
with output 99651 ≥ 90000; a failing operation leaves the state as it
was. -/
theorem C3_witness :
    (1 : Nat) ≤ 33 ∧ (90000 : Nat) ≤ 99651 ∧
    stepOp c3Contract (Op.addSimplePool 0 [1, 1] 25) = c3Contract :=
  ⟨C3_slippage_enforced.1 c3Contract 0 1 50 2 1
      { c3Contract with pools := [Pool.simple ⟨1, 2, 150, 67, 25, [], 0⟩] } 33 (by rfl),
    C3_slippage_enforced.1 c3sContract 0 1 100000 2 90000
      { c3sContract with pools := [Pool.stable
          ⟨[1, 2], [18, 18], [1100000, 900348], 100, 25, 0, [(7, 2000000)], 2000000⟩] }
      99651 (by rfl),
    C3_slippage_enforced.2 c3Contract (Op.addSimplePool 0 [1, 1] 25) Err.tokenDuplicates
      (by rfl)⟩

/-- C4: on the S1 pool (fee 25 bp, reserves 5·10^24 and 10·10^24),
swapping 10^24 of token A yields exactly 1663192997082117548978741 units
of B, both at formula level and through the full `execute_actions` path. -/
theorem C4_s1_exact_output :
    simpleSwapOut (5 * 10 ^ 24) (10 * 10 ^ 24) (10 ^ 24) 25 =
      1663192997082117548978741 ∧
    (match s1Contract.execute_actions 1 [Action.swap ⟨0, 1, some (10 ^ 24), 2, 1⟩] 3 with
      | .ok (_, r) => r
      | .error _ => ActionResult.none) =
      ActionResult.amount 1663192997082117548978741 :=
  ⟨rfl, rfl⟩

/-- C5 counterexample: a round trip of 10^6 units A → B → A on the 5:10
pool returns 995005, not 10^6 − 6 = 999994 (the test's round trip is of
10^3 units; the user's balance of 10^6 ends at 10^6 − 6). -/
theorem C5_counterexample :
    (match rtContract.internal_swap_unchecked 1 (rtActions 1000000) 7 with
      | .ok (_, out) => out
      | .error _ => 0) = 995005 ∧ (995005 : Nat) ≠ 10 ^ 6 - 6 :=
  ⟨rfl, by decide⟩

/-- C5 (amended): a round trip A → B → A on a simple pool returns at most
`amount_in` (for all reserves, amounts and fees); concretely, the test's
round trip of 10^3 units on the 5:10 pool with fee 25 bp returns
10^3 − 6 = 994, leaving the user who started with 10^6 units holding
10^6 − 6. -/
theorem C5_roundtrip_loss :
    (∀ (x y a fee : Nat),
      simpleSwapOut (y - simpleSwapOut x y a fee) (x + a) (simpleSwapOut x y a fee) fee ≤ a) ∧
    (match rtContract.internal_swap_unchecked 1 (rtActions 1000) 7 with
      | .ok (_, out) => out
      | .error _ => 0) = 1000 - 6 ∧
    (match rtContract.internal_swap_unchecked 1 (rtActions 1000) 7 with
      | .ok (c', _) => getDeposit c' 7 1
      | .error _ => 0) = 10 ^ 6 - 6 :=
  ⟨simpleSwapOut_roundTrip_le, rfl, rfl⟩

/-- C6 counterexample: a run that deposits `10^6` of token 2, provides it
as stable-pool liquidity and swaps `10^5` of token 1 into the pool ends
with a custody total of 999999 for token 2 — one unit short of the
`10^6` deposited (nothing withdrawn): the §4.3 stable swap's `-1`
rounding of `dy_c = x[k_out] − y − 1` removes value from the tracked
reserves, so the claimed exact equality fails. -/
theorem C6_counterexample :
    (runLedger 2 baseContract c6Ops).2 = (1000000, 0) ∧
    totalOfToken baseContract 2 = 0 ∧
    totalOfToken (runLedger 2 baseContract c6Ops).1 2 = 999999 ∧
    (999999 : Nat) + 0 ≠ 0 + 1000000 :=
  ⟨rfl, rfl, rfl, by decide⟩

/-- C6 (amended): ledger conservation — over any sequence of operations
(account registration, ledger deposits and withdrawals, pool creation,
liquidity addition/removal, swap execution) the custody total of each
token (all users' ledger balances plus all pool reserves) plus the
amounts withdrawn never exceeds the initial total plus the amounts
deposited (for any start state whose pools have basis-point fee rates,
as every created pool does) — no token is ever created; the total
changes exactly by deposits minus withdrawals whenever no stable pool
takes part (stable-free start state, no stable-pool creation): the §4.3
stable swap's `-1` rounding and admin-fee conversion leak value, so in
general only the inequality holds.  In the S2 scenario
`pool.reserve_i + user_deposit_i = 100·10^24` holds for both tokens. -/
theorem C6_ledger_conservation :
    (∀ (t : TokenId) (ops : List Op) (c : Contract), c.pools.all Pool.feeOk = true →
      totalOfToken (runLedger t c ops).1 t + (runLedger t c ops).2.2 ≤
        totalOfToken c t + (runLedger t c ops).2.1) ∧
    (∀ (t : TokenId) (ops : List Op) (c : Contract), stableFree c = true →
      (ops.all fun op => !op.addsStablePool) = true →
      totalOfToken (runLedger t c ops).1 t + (runLedger t c ops).2.2 =
        totalOfToken c t + (runLedger t c ops).2.1) ∧
    (match (run baseContract s2Ops).pools with
      | [Pool.simple p] =>
        p.amount0 + getDeposit (run baseContract s2Ops) 3 1 = 100 * 10 ^ 24 ∧
        p.amount1 + getDeposit (run baseContract s2Ops) 3 2 = 100 * 10 ^ 24
      | _ => False) ∧
    totalOfToken (run baseContract s2Ops) 1 = 100 * 10 ^ 24 ∧
    totalOfToken (run baseContract s2Ops) 2 = 100 * 10 ^ 24 ∧
    (runLedger 1 baseContract s2Ops).2 = (100 * 10 ^ 24, 0) :=
  ⟨fun t ops c hfee => (runLedger_total t ops c hfee).1,
    fun t ops c hsf hops => ((runLedger_total t ops c (all_feeOk_of_all_simple hsf)).2.2
      hsf hops).1,
    ⟨rfl, rfl⟩, rfl, rfl, rfl⟩

/-- C6 witness: the fresh contract has fee-valid (indeed, no) pools and
the S2 operation list never creates a stable pool, so conservation is
exact on the S2 run; the inequality also holds on the stable run of the
counterexample. -/
theorem C6_witness :
    baseContract.pools.all Pool.feeOk = true ∧
    stableFree baseContract = true ∧
    (s2Ops.all fun op => !op.addsStablePool) = true ∧
    (totalOfToken (runLedger 1 baseContract s2Ops).1 1 + (runLedger 1 baseContract s2Ops).2.2 =
      totalOfToken baseContract 1 + (runLedger 1 baseContract s2Ops).2.1) ∧
    (totalOfToken (runLedger 2 baseContract c6Ops).1 2 + (runLedger 2 baseContract c6Ops).2.2 ≤
      totalOfToken baseContract 2 + (runLedger 2 baseContract c6Ops).2.1) :=
  ⟨rfl, rfl, by decide,
    C6_ledger_conservation.2.1 1 s2Ops baseContract rfl (by decide),
    C6_ledger_conservation.1 2 c6Ops baseContract rfl⟩

/-- C7: creating a simple pool with duplicate tokens fails
`TokenDuplicates`; a duplicate-free token list whose length is not 2 fails
`WrongTokenCount`; a failing creation adds no pool. -/
theorem C7_pool_token_validation :
    (∀ (c : Contract) (caller : AccountId) (tokens : List TokenId) (fee : Nat),
      c.state = RunningState.running → ¬tokens.Nodup →
        c.add_simple_pool caller tokens fee = .error .tokenDuplicates) ∧
    (∀ (c : Contract) (caller : AccountId) (tokens : List TokenId) (fee : Nat),
      c.state = RunningState.running → tokens.Nodup → tokens.length ≠ 2 →
        c.add_simple_pool caller tokens fee = .error .wrongTokenCount) ∧
    (∀ (c : Contract) (caller : AccountId) (tokens : List TokenId) (fee : Nat) (e : Err),
      c.add_simple_pool caller tokens fee = .error e →
        stepOp c (Op.addSimplePool caller tokens fee) = c) :=
  ⟨fun _ _ _ _ h1 h2 => add_simple_pool_dup h1 h2,
    fun _ _ _ _ h1 h2 h3 => add_simple_pool_wrong_count h1 h2 h3,
    fun _ _ _ _ _ h => add_simple_pool_error_rollback h⟩

/-- C7 witness: `[1,1]` fails `TokenDuplicates`, `[1,2,3]` fails
`WrongTokenCount`, and the failing creation leaves the contract
unchanged. -/
theorem C7_witness :
    baseContract.add_simple_pool 3 [1, 1] 25 = .error .tokenDuplicates ∧
    baseContract.add_simple_pool 3 [1, 2, 3] 25 = .error .wrongTokenCount ∧
    stepOp baseContract (Op.addSimplePool 3 [1, 1] 25) = baseContract :=
  ⟨C7_pool_token_validation.1 baseContract 3 [1, 1] 25 rfl (by decide),
    C7_pool_token_validation.2.1 baseContract 3 [1, 2, 3] 25 rfl (by decide) (by decide),
    C7_pool_token_validation.2.2 baseContract 3 [1, 1] 25 Err.tokenDuplicates (by rfl)⟩

/-- C8: pool ids are assigned as the pool's index: `internal_add_pool`
returns the current length of the registry and appends, so ids grow
monotonically from 0 and are never reused; no operation ever shrinks the
registry, so pools are never deleted. -/
theorem C8_pool_ids_monotone :
    (∀ (c : Contract) (pool : Pool),
      (c.internal_add_pool pool).2 = c.pools.length ∧
        (c.internal_add_pool pool).1.pools.length = c.pools.length + 1) ∧
    (∀ (c : Contract) (op : Op), c.pools.length ≤ (stepOp c op).pools.length) ∧
    (∀ (c : Contract) (ops : List Op), c.pools.length ≤ (run c ops).pools.length) :=
  ⟨fun c pool => ⟨rfl, by simp [Contract.internal_add_pool]⟩,
    stepOp_pools_le, run_pools_le⟩

/-- C9 counterexample: account 7 is neither owner nor guardian of the base
contract, yet its `add_simple_pool` succeeds and appends a pool — simple
pool creation has no role check. -/
theorem C9_counterexample :
    baseContract.is_owner_or_guardians 7 = false ∧
    (baseContract.add_simple_pool 7 [1, 2] 25).isOk = true ∧
    (match baseContract.add_simple_pool 7 [1, 2] 25 with
      | .ok (c', id) => c'.pools.length = 1 ∧ id = 0
      | .error _ => False) :=
  ⟨rfl, rfl, rfl, rfl⟩

/-- C9 (amended): only stable-swap pool creation requires an authorized
caller — a caller who is neither owner nor guardian gets `NotAllowed` —
while simple-pool creation is open: its result does not depend on the
caller at all. -/
theorem C9_role_checks :
    (∀ (c : Contract) (caller : AccountId) (tokens : List TokenId)
        (decimals : List Nat) (fee amp : Nat),
      c.is_owner_or_guardians caller = false →
        c.add_stable_swap_pool caller tokens decimals fee amp = .error .notAllowed) ∧
    (∀ (c : Contract) (caller caller' : AccountId) (tokens : List TokenId) (fee : Nat),
      c.add_simple_pool caller tokens fee = c.add_simple_pool caller' tokens fee) :=
  ⟨fun _ _ _ _ _ _ h => add_stable_swap_pool_not_allowed h, fun _ _ _ _ _ => rfl⟩

/-- C9 witness: the unauthorized account 7 cannot create a stable pool. -/
theorem C9_witness :
    baseContract.add_stable_swap_pool 7 [1, 2] [6, 6] 25 100 = .error .notAllowed :=
  C9_role_checks.1 baseContract 7 [1, 2] [6, 6] 25 100 rfl

/-- C10: with zero attached deposit, `execute_actions` fails with the
deposit-needed error — before any state change — as soon as any token of
any action has neither a balance entry in the caller's account nor a
whitelist entry; with a positive attached deposit the check is skipped
entirely (the call coincides with the check-free variant). -/
theorem C10_zero_deposit_whitelist_check :
    (∀ (c : Contract) (actions : List Action) (sender : AccountId) (account : Account)
        (action : Action) (tk : TokenId),
      c.state = RunningState.running → alookup c.accounts sender = some account →
      action ∈ actions → tk ∈ action.tokens → account.get_balance tk = Option.none →
      c.whitelisted_tokens.contains tk = false →
        c.execute_actions 0 actions sender = .error .depositNeeded) ∧
    (∀ (c : Contract) (att : Nat) (actions : List Action) (sender : AccountId),
      att ≠ 0 →
        c.execute_actions att actions sender = c.execute_actions_unchecked actions sender) ∧
    (∀ (c : Contract) (att : Nat) (actions : List Action) (sender : AccountId) (e : Err),
      c.execute_actions att actions sender = .error e →
        stepOp c (Op.executeActions sender att actions) = c) :=
  ⟨fun _ _ _ _ _ _ hrun hacc hact htk hbal hwl =>
      execute_actions_deposit_needed hrun hacc (depositCheckOk_eq_false hact htk hbal hwl),
    fun _ _ _ _ h => execute_actions_skip_check h,
    fun _ _ _ _ _ h => execute_actions_error_rollback h⟩

/-- C10 witness: account 7 holds no tokens and the whitelist is empty, so
a zero-deposit swap of tokens 1 → 2 fails `DepositNeeded`; with 1 yocto
attached the same call equals the check-free variant. -/
theorem C10_witness :
    c10Contract.execute_actions 0 [Action.swap ⟨0, 1, some 5, 2, 1⟩] 7 =
      .error .depositNeeded ∧
    c10Contract.execute_actions 1 [Action.swap ⟨0, 1, some 5, 2, 1⟩] 7 =
      c10Contract.execute_actions_unchecked [Action.swap ⟨0, 1, some 5, 2, 1⟩] 7 :=
  ⟨C10_zero_deposit_whitelist_check.1 c10Contract [Action.swap ⟨0, 1, some 5, 2, 1⟩] 7
      Account.empty (Action.swap ⟨0, 1, some 5, 2, 1⟩) 1 rfl rfl (by decide) (by decide)
      rfl rfl,
    C10_zero_deposit_whitelist_check.2.1 c10Contract 1 [Action.swap ⟨0, 1, some 5, 2, 1⟩] 7
      (by decide)⟩


end Jumbo
